import Mathlib

/-!
Verification of the wander-weather core pipeline.

This file gives a shallow embedding, in Lean, of the core logic of the
wander-weather repository and proves (or refutes) the specification claims
about it.  The embedded functions are translated from:

* `src/app/api/suggestion/route.ts` — `retryWithBackoff` (retry with
  exponential backoff on transient errors), the suggestion `POST` handler's
  primary/fallback model-call structure, and its defensive response-text
  extraction;
* `src/app/api/weather/route.ts` — both provider variants of the weather
  `GET` handler's daily-forecast shaping (direct daily mapping for the
  Open-Meteo variant; 3-hourly bucketing by calendar date for the
  OpenWeatherMap variant) and the `capitalize` helper;
* `src/app/page.tsx` — `sanitizeSuggestion` and `extractSections`.

JavaScript numbers are modelled as `Nat`/`Int`/`ℚ` (all arithmetic involved
stays well inside exact float range), JS strings as Lean `String`/`List Char`,
nullish values as `Option`, and thrown errors as `Except`.  Effectful calls
(the generative-model invocations) are modelled as oracles `Nat → Except e α`
giving the outcome of each successive invocation.
-/

namespace WanderWeather

/-! ## JavaScript primitives shared by several routes -/

/-- The character class matched by JavaScript `\s` (which is also exactly the
set trimmed by `String.prototype.trim`): WhiteSpace ∪ LineTerminator.
Note U+200B (zero-width space) is *not* in this set. -/
def jsWhitespace (c : Char) : Bool :=
  let n := c.toNat
  n == 0x20 || n == 0x09 || n == 0x0a || n == 0x0d || n == 0x0b || n == 0x0c ||
  n == 0xa0 || n == 0x1680 || (0x2000 <= n && n <= 0x200a) ||
  n == 0x2028 || n == 0x2029 || n == 0x202f || n == 0x205f || n == 0x3000 ||
  n == 0xfeff

/-- JavaScript `String.prototype.trim` on a character list. -/
def jsTrimList (cs : List Char) : List Char :=
  ((cs.dropWhile jsWhitespace).reverse.dropWhile jsWhitespace).reverse

/-- JavaScript `String.prototype.trim`. -/
def jsTrimStr (s : String) : String :=
  ⟨jsTrimList s.data⟩

/-- JavaScript `String.prototype.toLowerCase`, modelled characterwise (the
description strings involved are ASCII). -/
def jsToLower (s : String) : String :=
  ⟨s.data.map Char.toLower⟩

/-! ## `retryWithBackoff` (src/app/api/suggestion/route.ts, lines 51–89) -/

/-- A JavaScript value read out of a thrown error object at one of the five
status-carrying fields: a number, a string, or some other (non-number,
non-string) value. -/
inductive StatusVal where
  | num (n : Int)
  | str (s : String)
  | other
deriving DecidableEq, Repr

/-- A thrown error, as inspected by `retryWithBackoff` and by the suggestion
handler's fallback path.  Each field is `none` when the corresponding property
is absent/nullish.  `selfText` models the string coercion `String(err)` used
when `err.message` is nullish. -/
structure JsError where
  errorCode : Option StatusVal
  status : Option StatusVal
  statusCode : Option StatusVal
  code : Option StatusVal
  status_text : Option StatusVal
  message : Option String
  selfText : String
deriving DecidableEq

/-- Line 63–64: `err?.error?.code ?? err?.status ?? err?.statusCode ??
err?.code ?? err?.status_text` — first non-nullish wins. -/
def extractStatus (e : JsError) : Option StatusVal :=
  e.errorCode <|> e.status <|> e.statusCode <|> e.code <|> e.status_text

/-- Lines 67–70: a status is transient when it is the number 429 or 503, or
one of the three transient string codes (a `Set.has` lookup on a string never
matches the numeric members of the set). -/
def isTransientStatus : Option StatusVal → Bool
  | some (.num n) => n == 429 || n == 503
  | some (.str s) => s == "UNAVAILABLE" || s == "RATE_LIMIT_EXCEEDED" || s == "TOO_MANY_REQUESTS"
  | _ => false

/-- Transience of a thrown error, via its extracted status. -/
def isTransientError (e : JsError) : Bool :=
  isTransientStatus (extractStatus e)

/-- Line 78: `Math.min(maxDelayMs, baseDelayMs * Math.pow(2, attempt))`. -/
def backoffExpo (baseDelayMs maxDelayMs attempt : Nat) : Nat :=
  min maxDelayMs (baseDelayMs * 2 ^ attempt)

/-- Line 79, the exclusive upper bound of the jitter draw:
`Math.min(1000, Math.floor(expo / 2))` (the draw itself is
`Math.floor(Math.random() * that)`, i.e. uniform on `[0, that)` when
`that > 0`, and `0` when `that = 0`). -/
def jitterCap (baseDelayMs maxDelayMs attempt : Nat) : Nat :=
  min 1000 (backoffExpo baseDelayMs maxDelayMs attempt / 2)

/-- Line 80: `Math.max(100, expo - jitter)`, the delay actually slept. -/
def backoffWait (baseDelayMs maxDelayMs attempt jitter : Nat) : Nat :=
  max 100 (backoffExpo baseDelayMs maxDelayMs attempt - jitter)

/-- The loop of `retryWithBackoff` (lines 57–88).  `fn k` is the outcome of
the `k`-th invocation of the wrapped function (0-based); `attempt` counts the
calls already made.  Returns the final outcome together with the total number
of invocations.  Mirrors: on success return; on failure increment `attempt`,
rethrow when the error is non-transient or `attempt >= attempts`, otherwise
sleep and loop. -/
def retryGo (fn : Nat → Except JsError α) (attempts : Nat) (attempt : Nat) :
    Except JsError α × Nat :=
  match fn attempt with
  | .ok v => (.ok v, attempt + 1)
  | .error err =>
    if isTransientError err = false ∨ attempt + 1 ≥ attempts then
      (.error err, attempt + 1)
    else
      retryGo fn attempts (attempt + 1)
termination_by attempts - attempt
decreasing_by
  rename_i hcond
  push_neg at hcond
  omega

/-- `retryWithBackoff fn attempts`: run the retry loop starting at attempt 0.
Result and total number of invocations of `fn`. -/
def retryWithBackoff (fn : Nat → Except JsError α) (attempts : Nat) :
    Except JsError α × Nat :=
  retryGo fn attempts 0

/-- Characterization of the retry loop, by induction on remaining attempts. -/
theorem retryGo_spec (fn : Nat → Except JsError α) (attempts attempt : Nat)
    (h : attempt < attempts) :
    attempt < (retryGo fn attempts attempt).2 ∧
    (retryGo fn attempts attempt).2 ≤ attempts ∧
    (∀ e, (retryGo fn attempts attempt).1 = .error e →
      fn ((retryGo fn attempts attempt).2 - 1) = .error e) ∧
    (∀ v, (retryGo fn attempts attempt).1 = .ok v →
      fn ((retryGo fn attempts attempt).2 - 1) = .ok v) ∧
    (∀ i, attempt ≤ i → i + 1 < (retryGo fn attempts attempt).2 →
      ∃ e, fn i = .error e ∧ isTransientError e = true) ∧
    (∀ e, (retryGo fn attempts attempt).1 = .error e → isTransientError e = true →
      (retryGo fn attempts attempt).2 = attempts) := by
  rw [retryGo]
  cases hf : fn attempt with
  | ok v =>
    dsimp only
    refine ⟨by omega, by omega, ?_, ?_, ?_, ?_⟩
    · intro e he; simp at he
    · intro w hw
      simp only [Except.ok.injEq] at hw
      subst hw
      simpa using hf
    · intro i h1 h2; omega
    · intro e he; simp at he
  | error err =>
    dsimp only
    by_cases hc : isTransientError err = false ∨ attempt + 1 ≥ attempts
    · simp only [hc, if_true]
      refine ⟨by omega, by omega, ?_, ?_, ?_, ?_⟩
      · intro e he
        simp only [Except.error.injEq] at he
        subst he
        simpa using hf
      · intro v hv; simp at hv
      · intro i h1 h2; omega
      · intro e he htr
        simp only [Except.error.injEq] at he
        subst he
        rcases hc with hc | hc
        · rw [htr] at hc; simp at hc
        · omega
    · simp only [hc, if_false]
      push_neg at hc
      obtain ⟨htr, hlt⟩ := hc
      have ih := retryGo_spec fn attempts (attempt + 1) (by omega)
      refine ⟨by omega, ih.2.1, ih.2.2.1, ih.2.2.2.1, ?_, ih.2.2.2.2.2⟩
      intro i h1 h2
      rcases Nat.eq_or_lt_of_le h1 with rfl | h1
      · exact ⟨err, hf, by simpa using htr⟩
      · exact ih.2.2.2.2.1 i (by omega) h2
termination_by attempts - attempt

/-- Claim C1: with the configured `attempts = 5`, the wrapped function is
invoked at most 5 times; whenever the final outcome is an error it is exactly
the error raised by the last invocation (rethrown unchanged); every invocation
before the last failed with a transient status (429, 503, "UNAVAILABLE",
"RATE_LIMIT_EXCEEDED" or "TOO_MANY_REQUESTS"), so a non-transient error is
rethrown immediately with no further invocation; and a final transient error
occurs only when all 5 attempts are exhausted. -/
theorem retryWithBackoff_attempts_and_transience (fn : Nat → Except JsError α) :
    (retryWithBackoff fn 5).2 ≤ 5 ∧
    (∀ e, (retryWithBackoff fn 5).1 = .error e →
      fn ((retryWithBackoff fn 5).2 - 1) = .error e) ∧
    (∀ i, i + 1 < (retryWithBackoff fn 5).2 →
      ∃ e, fn i = .error e ∧ isTransientError e = true) ∧
    (∀ e, (retryWithBackoff fn 5).1 = .error e → isTransientError e = true →
      (retryWithBackoff fn 5).2 = 5) := by
  have h := retryGo_spec fn 5 0 (by omega)
  exact ⟨h.2.1, h.2.2.1, fun i hi => h.2.2.2.2.1 i (Nat.zero_le i) hi, h.2.2.2.2.2⟩

/-- A concrete always-transiently-failing call: every invocation throws an
error whose extracted status is the number 429. -/
def c1Err : JsError :=
  ⟨some (.num 429), none, none, none, none, some "rate limited", "Error: rate limited"⟩

/-- A concrete oracle that fails transiently on every invocation. -/
def c1Fn : Nat → Except JsError Nat := fun _ => .error c1Err

/-- Witness for C1 at a concrete input: the always-429 oracle is invoked
exactly 5 times and the loop rethrows its last error unchanged. -/
theorem retryWithBackoff_attempts_and_transience_witness :
    (retryWithBackoff c1Fn 5).2 ≤ 5 ∧
    c1Fn ((retryWithBackoff c1Fn 5).2 - 1) = .error c1Err ∧
    (retryWithBackoff c1Fn 5).2 = 5 := by
  have h := retryWithBackoff_attempts_and_transience c1Fn
  have hres : (retryWithBackoff c1Fn 5).1 = .error c1Err := by
    simp [retryWithBackoff, retryGo, c1Fn, isTransientError, extractStatus,
      isTransientStatus, c1Err]
  exact ⟨h.1, h.2.1 c1Err hres, h.2.2.2 c1Err hres (by rfl)⟩

/-- Claim C2: at the handler's configuration (`baseDelayMs = 600`,
`maxDelayMs = 8000`), for every retry index `k ≥ 1` and every jitter draw `j`
below the jitter cap `min(1000, ⌊min(8000, 600·2^k)/2⌋)`, the slept delay is
`max(100, min(8000, 600·2^k) − j)`, lies between 100 ms and
`min(8000, 600·2^k)`, and never exceeds the configured 8000 ms cap. -/
theorem backoffWait_formula_and_bounds (k j : Nat) (hk : 1 ≤ k)
    (hj : j < jitterCap 600 8000 k) :
    backoffWait 600 8000 k j = max 100 (min 8000 (600 * 2 ^ k) - j) ∧
    100 ≤ backoffWait 600 8000 k j ∧
    backoffWait 600 8000 k j ≤ min 8000 (600 * 2 ^ k) ∧
    backoffWait 600 8000 k j ≤ 8000 := by
  have h2 : (2 : Nat) ≤ 2 ^ k := by
    calc (2 : Nat) = 2 ^ 1 := rfl
    _ ≤ 2 ^ k := Nat.pow_le_pow_right (by norm_num) hk
  simp only [backoffWait, backoffExpo, jitterCap] at hj
  refine ⟨rfl, ?_, ?_, ?_⟩ <;>
    simp only [backoffWait, backoffExpo, jitterCap] <;> omega

/-- Witness for C2 at `k = 1`, `j = 0`: the jitter cap is positive there and
the delay respects the 8000 ms cap. -/
theorem backoffWait_formula_and_bounds_witness :
    1 ≤ 1 ∧ 0 < jitterCap 600 8000 1 ∧ backoffWait 600 8000 1 0 ≤ 8000 :=
  ⟨Nat.le_refl 1, by decide,
    (backoffWait_formula_and_bounds 1 0 (Nat.le_refl 1) (by decide)).2.2.2⟩

/-! ## Suggestion `POST` handler: model call, fallback, extraction
(src/app/api/suggestion/route.ts, lines 161–224) -/

/-- One element of a (hypothetical) `outputs` array on the model response.
`none` models an absent/nullish property. -/
structure OutputPart where
  text : Option String
  content : Option String
deriving DecidableEq

/-- A model response, as probed by the handler's defensive extraction:
a direct `text` field, an alternate `outputText` field, or an `outputs`
array of parts.  `none` models absent/nullish fields (`outputs = none` also
covers a present non-array value, which `Array.isArray` rejects). -/
structure GenResponse where
  text : Option String
  outputText : Option String
  outputs : Option (List OutputPart)
deriving DecidableEq

/-- JavaScript `a || d` for an optional string `a`: `d` unless `a` is present
and truthy (non-empty). -/
def truthyOrElse (v : Option String) (d : String) : String :=
  match v with
  | some s => if s = "" then d else s
  | none => d

/-- Line 210: `o.text || o.content || ''`. -/
def partText (o : OutputPart) : String :=
  truthyOrElse o.text (truthyOrElse o.content "")

/-- Lines 205–212: `response?.text ?? response?.outputText ??
(Array.isArray(response?.outputs) && response.outputs.length ?
response.outputs.map(o => o.text || o.content || '').join('\n') : '') ?? ''`.
The `??` chain takes the first non-nullish alternative; the array branch
always produces a string, so the final `?? ''` never fires. -/
def extractText (r : GenResponse) : String :=
  match r.text with
  | some t => t
  | none =>
    match r.outputText with
    | some t => t
    | none =>
      match r.outputs with
      | some outs =>
        if outs.length ≠ 0 then String.intercalate "\n" (outs.map partText) else ""
      | none => ""

/-- An HTTP JSON response produced by the suggestion handler.  `none` fields
model properties that are absent from the JSON body (an `undefined` value is
dropped by `NextResponse.json`). -/
structure ApiResponse where
  status : Nat
  error : Option String
  details : Option String
  suggestion : Option String
deriving DecidableEq

/-- Lines 203–224: trim the extracted text; empty means a 500
"AI returned empty suggestion." error, otherwise a 200 with the suggestion. -/
def respondWithText (r : GenResponse) : ApiResponse :=
  let s := jsTrimStr (extractText r)
  if s = "" then ⟨500, some "AI returned empty suggestion.", none, none⟩
  else ⟨200, none, none, some s⟩

/-- The 503 error message of lines 189–198. -/
def unavailableMsg : String :=
  "Suggestion service temporarily unavailable. Please try again in a few minutes."

/-- Line 194: `String(errFallback?.message ?? errFallback)`. -/
def errorDetailText (e : JsError) : String :=
  match e.message with
  | some m => m
  | none => e.selfText

/-- Lines 167–224: the model-call section of the `POST` handler.  The primary
model is called through `retryWithBackoff` with 5 attempts; if that throws,
the fallback model is consulted exactly once (its single outcome is
`fallback`); if the fallback also throws, a 503 response is returned whose
`details` field carries the fallback error's message only when
`NODE_ENV = "development"`.  Returns the response together with the number of
fallback-model invocations. -/
def suggestionModelCall (primary : Nat → Except JsError GenResponse)
    (fallback : Except JsError GenResponse) (nodeEnv : String) :
    ApiResponse × Nat :=
  match (retryWithBackoff primary 5).1 with
  | .ok r => (respondWithText r, 0)
  | .error _ =>
    match fallback with
    | .ok r => (respondWithText r, 1)
    | .error errFallback =>
      (⟨503, some unavailableMsg,
        if nodeEnv = "development" then some (errorDetailText errFallback) else none,
        none⟩, 1)

/-- Claim C3: when the primary path (after its retry loop) throws, the
fallback model is consulted exactly once (and zero times when the primary
path succeeds); when the fallback also fails the handler answers 503 with the
generic unavailability message, whose `details` field carries the fallback
error's message exactly when `NODE_ENV = "development"`; and a `details`
field is present in the response only in development. -/
theorem suggestionModelCall_fallback_spec
    (primary : Nat → Except JsError GenResponse)
    (fallback : Except JsError GenResponse) (nodeEnv : String) :
    (∀ r, (retryWithBackoff primary 5).1 = .ok r →
      (suggestionModelCall primary fallback nodeEnv).2 = 0) ∧
    (∀ e, (retryWithBackoff primary 5).1 = .error e →
      (suggestionModelCall primary fallback nodeEnv).2 = 1) ∧
    (∀ e errFallback, (retryWithBackoff primary 5).1 = .error e →
      fallback = .error errFallback →
      (suggestionModelCall primary fallback nodeEnv).1 =
        ⟨503, some unavailableMsg,
          if nodeEnv = "development" then some (errorDetailText errFallback)
          else none, none⟩) ∧
    ((suggestionModelCall primary fallback nodeEnv).1.details ≠ none →
      nodeEnv = "development") := by
  unfold suggestionModelCall
  cases hp : (retryWithBackoff primary 5).1 with
  | ok r =>
    dsimp only
    refine ⟨fun _ _ => rfl, ?_, ?_, ?_⟩
    · intro e he; cases he
    · intro e _ he; cases he
    · intro hd
      exfalso
      apply hd
      simp only [respondWithText]
      split <;> rfl
  | error e0 =>
    dsimp only
    cases hf : fallback with
    | ok r =>
      dsimp only
      refine ⟨?_, fun _ _ => rfl, ?_, ?_⟩
      · intro r2 hr; cases hr
      · intro e errF _ hef; cases hef
      · intro hd
        exfalso
        apply hd
        simp only [respondWithText]
        split <;> rfl
    | error errF =>
      dsimp only
      refine ⟨?_, fun _ _ => rfl, ?_, ?_⟩
      · intro r2 hr; cases hr
      · intro e errF2 _ hef
        cases hef
        rfl
      · intro hd
        by_cases hdev : nodeEnv = "development"
        · exact hdev
        · exfalso; apply hd; simp only [hdev, if_false]

/-- A concrete non-transient error (status 500) for the C3 witness. -/
def c3ErrPrimary : JsError :=
  ⟨none, some (.num 500), none, none, none, some "boom", "Error: boom"⟩

/-- A concrete fallback-model error for the C3 witness. -/
def c3ErrFallback : JsError :=
  ⟨none, some (.num 500), none, none, none, some "fallback boom", "Error: fallback boom"⟩

/-- A concrete primary oracle that always fails non-transiently. -/
def c3Primary : Nat → Except JsError GenResponse := fun _ => .error c3ErrPrimary

/-- Witness for C3 at concrete inputs: primary fails non-transiently, the
fallback fails too, `NODE_ENV = "production"`; the handler returns the 503
with no `details` field, after exactly one fallback consultation. -/
theorem suggestionModelCall_fallback_spec_witness :
    (suggestionModelCall c3Primary (.error c3ErrFallback) "production").2 = 1 ∧
    (suggestionModelCall c3Primary (.error c3ErrFallback) "production").1 =
      ⟨503, some unavailableMsg, none, none⟩ := by
  have hp : (retryWithBackoff c3Primary 5).1 = .error c3ErrPrimary := by
    simp [retryWithBackoff, retryGo, c3Primary, isTransientError, extractStatus,
      isTransientStatus, c3ErrPrimary]
  have h := suggestionModelCall_fallback_spec c3Primary (.error c3ErrFallback) "production"
  refine ⟨h.2.1 c3ErrPrimary hp, ?_⟩
  have h3 := h.2.2.1 c3ErrPrimary c3ErrFallback hp rfl
  simpa using h3

/-- Claim C4: whenever the ordered extraction strategies (direct `text`
field, then `outputText`, then newline-joined `outputs` parts) yield only an
empty or whitespace-only string, the handler returns the 500 response
`"AI returned empty suggestion."`; and a 200 response always carries the
trimmed, non-empty extracted text — never an empty suggestion. -/
theorem respondWithText_empty_spec :
    (∀ r : GenResponse, jsTrimStr (extractText r) = "" →
      respondWithText r = ⟨500, some "AI returned empty suggestion.", none, none⟩) ∧
    (∀ r : GenResponse, (respondWithText r).status = 200 →
      (respondWithText r).suggestion = some (jsTrimStr (extractText r)) ∧
      jsTrimStr (extractText r) ≠ "") ∧
    (∀ (primary : Nat → Except JsError GenResponse)
       (fallback : Except JsError GenResponse) (nodeEnv : String) (t : String),
      (suggestionModelCall primary fallback nodeEnv).1.status = 200 →
      (suggestionModelCall primary fallback nodeEnv).1.suggestion = some t →
      t ≠ "") := by
  have hmain : ∀ r : GenResponse, (respondWithText r).status = 200 →
      (respondWithText r).suggestion = some (jsTrimStr (extractText r)) ∧
      jsTrimStr (extractText r) ≠ "" := by
    intro r h200
    unfold respondWithText at h200 ⊢
    by_cases he : jsTrimStr (extractText r) = ""
    · rw [if_pos he] at h200; cases h200
    · rw [if_neg he]
      exact ⟨rfl, he⟩
  refine ⟨?_, hmain, ?_⟩
  · intro r he
    unfold respondWithText
    rw [if_pos he]
  · intro primary fallback nodeEnv t h200 hsugg
    unfold suggestionModelCall at h200 hsugg
    cases hp : (retryWithBackoff primary 5).1 with
    | ok r =>
      rw [hp] at h200 hsugg
      have := hmain r h200
      rw [this.1] at hsugg
      cases hsugg
      exact this.2
    | error e0 =>
      rw [hp] at h200 hsugg
      cases hf : fallback with
      | ok r =>
        rw [hf] at h200 hsugg
        have := hmain r h200
        rw [this.1] at hsugg
        cases hsugg
        exact this.2
      | error errF =>
        rw [hf] at h200
        cases h200

/-- A concrete model response whose `text` field is whitespace-only. -/
def c4Resp : GenResponse := ⟨some "   ", none, none⟩

/-- Witness for C4 at a concrete input: a whitespace-only `text` field is
answered with the 500 empty-suggestion error. -/
theorem respondWithText_empty_spec_witness :
    respondWithText c4Resp = ⟨500, some "AI returned empty suggestion.", none, none⟩ :=
  respondWithText_empty_spec.1 c4Resp (by decide)

/-! ## Weather `GET` handler, Open-Meteo variant
(src/app/api/weather/route.ts, first variant, lines 64–127) -/

/-- Open-Meteo weather-code → human description table (lines 94–127).
`table[code] || 'Unknown'`: an unknown or absent code gives "Unknown". -/
def codeToDescription : Option Nat → String
  | none => "Unknown"
  | some code =>
    match code with
    | 0 => "Clear sky"
    | 1 => "Mainly clear"
    | 2 => "Partly cloudy"
    | 3 => "Overcast"
    | 45 => "Fog"
    | 48 => "Depositing rime fog"
    | 51 => "Light drizzle"
    | 53 => "Moderate drizzle"
    | 55 => "Dense drizzle"
    | 56 => "Light freezing drizzle"
    | 57 => "Dense freezing drizzle"
    | 61 => "Slight rain"
    | 63 => "Moderate rain"
    | 65 => "Heavy rain"
    | 66 => "Light freezing rain"
    | 67 => "Heavy freezing rain"
    | 71 => "Slight snow fall"
    | 73 => "Moderate snow fall"
    | 75 => "Heavy snow fall"
    | 77 => "Snow grains"
    | 80 => "Slight rain showers"
    | 81 => "Moderate rain showers"
    | 82 => "Violent rain showers"
    | 85 => "Slight snow showers"
    | 86 => "Heavy snow showers"
    | 95 => "Thunderstorm"
    | 96 => "Thunderstorm with slight hail"
    | 99 => "Thunderstorm with heavy hail"
    | _ => "Unknown"

/-- The `temp` object of one shaped daily entry (lines 72–76). -/
structure TempTriple where
  day : Option ℚ
  max : Option ℚ
  min : Option ℚ
deriving DecidableEq

/-- One shaped daily entry of the Open-Meteo variant (lines 70–79).  The
one-element `weather` array is modelled by its single member's fields. -/
structure DailyEntryA where
  dt : Nat
  temp : TempTriple
  pop : ℚ
  description : String
  code : Option Nat
deriving DecidableEq

/-- Reading `arr[i]` from a JS array whose entries may be `null`/non-numeric
(`none`): out-of-range and nullish both give `none`, matching the
`typeof arr[i] === 'number'` guards. -/
def numAt (xs : List (Option ℚ)) (i : Nat) : Option ℚ :=
  (xs[i]?).join

/-- Reading `codeArr?.[i]` (an optional integer). -/
def codeAt (xs : List (Option Nat)) (i : Nat) : Option Nat :=
  (xs[i]?).join

/-- Lines 70–79: `times.map((t, i) => ({dt, temp:{day, max, min}, pop,
weather:[{description, code}]}))`.  `times` holds the parsed epoch seconds of
the daily `time` strings.
`day` is `(max+min)/2` when both are numbers, else `maxArr[i] ?? minArr[i] ??
null`; `pop` is `popArr[i]/100` when a number, else `0`. -/
def dailyA (times : List Nat) (maxArr minArr popArr : List (Option ℚ))
    (codeArr : List (Option Nat)) : List DailyEntryA :=
  times.enum.map fun p =>
    { dt := p.2,
      temp :=
        { day :=
            match numAt maxArr p.1, numAt minArr p.1 with
            | some a, some b => some ((a + b) / 2)
            | some a, none => some a
            | none, some b => some b
            | none, none => none,
          max := numAt maxArr p.1,
          min := numAt minArr p.1 },
      pop :=
        match numAt popArr p.1 with
        | some v => v / 100
        | none => 0,
      description := codeToDescription (codeAt codeArr p.1),
      code := codeAt codeArr p.1 }

/-! ## Weather `GET` handler, OpenWeatherMap variant
(src/app/api/weather/route.ts, second variant, lines 172–246) -/

/-- One 3-hourly forecast item as consumed by the bucketing loop:
`{dt, main: {temp}, weather: [{description}], pop?}`.  `pop = none` models an
absent or non-numeric `pop`; `description = none` an absent
`weather?.[0]?.description`. -/
structure ForecastItem where
  dt : Nat
  temp : ℚ
  pop : Option ℚ
  description : Option String
deriving DecidableEq

/-- Line 194: `new Date(it.dt * 1000).toISOString().split('T')[0]` — two
epochs yield the same ISO calendar-date string iff they lie in the same UTC
day, i.e. have the same `dt / 86400`; the bucket key is modelled by that UTC
day index. -/
def dateKey (dt : Nat) : Nat := dt / 86400

/-- Line 200: `(it.weather?.[0]?.description || 'clear').toLowerCase()`. -/
def descOf (it : ForecastItem) : String :=
  jsToLower (truthyOrElse it.description "clear")

/-- One `dayMap` bucket (lines 183–191). -/
structure DayBucket where
  temps : List ℚ
  pops : List ℚ
  descCounts : List (String × Nat)
  dtFirst : Nat
deriving DecidableEq

/-- Line 201: `descCounts[desc] = (descCounts[desc] || 0) + 1`.  The record is
modelled as an association list in insertion order (its keys are description
strings, for which JS object enumeration order is insertion order). -/
def bumpCount : List (String × Nat) → String → List (String × Nat)
  | [], k => [(k, 1)]
  | (k', c) :: rest, k =>
    if k' = k then (k', c + 1) :: rest else (k', c) :: bumpCount rest k

/-- Lines 198–201: push the item's temperature, its `pop` when numeric, and
bump its description count. -/
def addToBucket (b : DayBucket) (it : ForecastItem) : DayBucket :=
  { temps := b.temps ++ [it.temp],
    pops := b.pops ++ (match it.pop with | some p => [p] | none => []),
    descCounts := bumpCount b.descCounts (descOf it),
    dtFirst := b.dtFirst }

/-- Lines 195–201: find (or create, with `dtFirst = it.dt`) the bucket of the
item's date and add the item to it.  The `dayMap` record is modelled as an
association list in insertion order (its keys are date strings, for which JS
object enumeration order is insertion order). -/
def insertItem : List (Nat × DayBucket) → ForecastItem → List (Nat × DayBucket)
  | [], it => [(dateKey it.dt, addToBucket ⟨[], [], [], it.dt⟩ it)]
  | (k, b) :: rest, it =>
    if k = dateKey it.dt then (k, addToBucket b it) :: rest
    else (k, b) :: insertItem rest it

/-- Lines 193–202: the grouping loop over the 3-hourly list. -/
def buildDayMap (items : List ForecastItem) : List (Nat × DayBucket) :=
  items.foldl insertItem []

/-- Lines 243–246: `capitalize` — empty string unchanged, otherwise uppercase
the first character. -/
def capitalize (s : String) : String :=
  match s.data with
  | [] => s
  | c :: rest => ⟨c.toUpper :: rest⟩

/-- Line 210: `Object.entries(info.descCounts).sort((a,b) => b[1]-a[1])[0]`.
A stable descending sort by count puts first the earliest-inserted entry
attaining the maximal count, which this left fold computes (replace only on a
strictly greater count). -/
def pickMaxCount : List (String × Nat) → Option (String × Nat)
  | [] => none
  | p :: rest => some (rest.foldl (fun best q => if q.2 > best.2 then q else best) p)

/-- Line 210, the trailing `?.[0] || 'clear'`: absent winner (empty record)
or empty-string winner gives "clear". -/
def mostCommonDesc (counts : List (String × Nat)) : String :=
  truthyOrElse ((pickMaxCount counts).map Prod.fst) "clear"

/-- One emitted daily summary of the OpenWeatherMap variant (lines 211–216).
The one-element `weather` array is modelled by its single member's field. -/
structure DailyEntryB where
  dt : Nat
  tempDay : ℚ
  pop : ℚ
  description : String
deriving DecidableEq

/-- Lines 207–216: average temperature (`/ Math.max(1, len)`), average `pop`
(`0` when no numeric samples), modal description (capitalized). -/
def summarizeBucket (info : DayBucket) : DailyEntryB :=
  { dt := info.dtFirst,
    tempDay := info.temps.sum / (max 1 info.temps.length : ℚ),
    pop := if info.pops.length ≠ 0 then info.pops.sum / (info.pops.length : ℚ) else 0,
    description := capitalize (mostCommonDesc info.descCounts) }

/-- Lines 204–217: sort the buckets by date ascending (distinct date keys, so
any correct sort gives the same list), keep the first 7, summarize each. -/
def dailyB (items : List ForecastItem) : List DailyEntryB :=
  (((buildDayMap items).insertionSort (fun a b => a.1 ≤ b.1)).take 7).map
    (fun p => summarizeBucket p.2)

/-! ### Characterization of the bucketing loop -/

/-- Association-list lookup in the modelled `dayMap` record. -/
def lookupA : List (Nat × DayBucket) → Nat → Option DayBucket
  | [], _ => none
  | (k, b) :: rest, d => if k = d then some b else lookupA rest d

/-- The key list of the modelled record, in insertion order. -/
def keysOf (m : List (Nat × DayBucket)) : List Nat :=
  m.map Prod.fst

/-- The items of a given calendar date, in list order. -/
def itemsFor (items : List ForecastItem) (d : Nat) : List ForecastItem :=
  items.filter (fun it => dateKey it.dt = d)

/-- Occurrence counts of a string list, in first-seen key order. -/
def countsOfList (xs : List String) : List (String × Nat) :=
  xs.foldl bumpCount []

/-- The bucket that the grouping loop accumulates for date `d`. -/
def bucketFor (items : List ForecastItem) (d : Nat) : DayBucket :=
  { temps := (itemsFor items d).map ForecastItem.temp,
    pops := (itemsFor items d).filterMap ForecastItem.pop,
    descCounts := countsOfList ((itemsFor items d).map descOf),
    dtFirst :=
      match (itemsFor items d).head? with
      | some it => it.dt
      | none => 0 }

theorem insertItem_keys (m : List (Nat × DayBucket)) (it : ForecastItem) :
    keysOf (insertItem m it) =
      if dateKey it.dt ∈ keysOf m then keysOf m else keysOf m ++ [dateKey it.dt] := by
  induction m with
  | nil => simp [insertItem, keysOf]
  | cons p rest ih =>
    obtain ⟨k, b⟩ := p
    by_cases hk : k = dateKey it.dt
    · subst hk
      simp [insertItem, keysOf]
    · simp only [insertItem, if_neg hk, keysOf, List.map_cons] at ih ⊢
      rw [ih]
      have : (dateKey it.dt ∈ k :: List.map Prod.fst rest) ↔
          (dateKey it.dt ∈ List.map Prod.fst rest) := by
        simp only [List.mem_cons]
        constructor
        · rintro (h | h)
          · exact absurd h.symm hk
          · exact h
        · exact Or.inr
      by_cases hmem : dateKey it.dt ∈ List.map Prod.fst rest
      · rw [if_pos hmem, if_pos (this.mpr hmem)]
      · rw [if_neg hmem, if_neg (fun hc => hmem (this.mp hc))]
        simp

theorem insertItem_lookupA_same (m : List (Nat × DayBucket)) (it : ForecastItem) :
    lookupA (insertItem m it) (dateKey it.dt) =
      some (addToBucket ((lookupA m (dateKey it.dt)).getD ⟨[], [], [], it.dt⟩) it) := by
  induction m with
  | nil => simp [insertItem, lookupA]
  | cons p rest ih =>
    obtain ⟨k, b⟩ := p
    by_cases hk : k = dateKey it.dt
    · subst hk
      simp [insertItem, lookupA]
    · simp [insertItem, lookupA, if_neg hk, hk, ih]

theorem insertItem_lookupA_other (m : List (Nat × DayBucket)) (it : ForecastItem)
    (d : Nat) (hd : d ≠ dateKey it.dt) :
    lookupA (insertItem m it) d = lookupA m d := by
  have hd2 : ¬ (dateKey it.dt = d) := fun hc => hd hc.symm
  induction m with
  | nil =>
    simp only [insertItem, lookupA]
    rw [if_neg hd2]
  | cons p rest ih =>
    obtain ⟨k, b⟩ := p
    by_cases hk : k = dateKey it.dt
    · subst hk
      simp only [insertItem, if_pos rfl, lookupA]
      rw [if_neg hd2, if_neg hd2]
    · by_cases hkd : k = d
      · subst hkd
        simp [insertItem, lookupA, if_neg hk]
      · simp [insertItem, lookupA, if_neg hk, if_neg hkd, ih]

theorem itemsFor_append (items : List ForecastItem) (it : ForecastItem) (d : Nat) :
    itemsFor (items ++ [it]) d =
      itemsFor items d ++ (if dateKey it.dt = d then [it] else []) := by
  simp only [itemsFor, List.filter_append]
  congr 1
  by_cases h : dateKey it.dt = d
  · simp [h]
  · simp [List.filter, h]

theorem countsOfList_append (xs : List String) (y : String) :
    countsOfList (xs ++ [y]) = bumpCount (countsOfList xs) y := by
  simp [countsOfList, List.foldl_concat]

theorem buildDayMap_lookupA (items : List ForecastItem) (d : Nat) :
    lookupA (buildDayMap items) d =
      if itemsFor items d = [] then none else some (bucketFor items d) := by
  induction items using List.reverseRecOn with
  | nil => simp [buildDayMap, lookupA, itemsFor]
  | append_singleton xs it ih =>
    have hfold : buildDayMap (xs ++ [it]) = insertItem (buildDayMap xs) it := by
      simp [buildDayMap, List.foldl_concat]
    rw [hfold]
    by_cases hd : d = dateKey it.dt
    · subst hd
      have hne2 : itemsFor xs (dateKey it.dt) ++ [it] ≠ [] := by simp
      rw [insertItem_lookupA_same, ih, itemsFor_append, if_pos rfl, if_neg hne2]
      by_cases hempty : itemsFor xs (dateKey it.dt) = []
      · rw [if_pos hempty]
        simp only [Option.getD_none]
        congr 1
        unfold bucketFor addToBucket
        rw [itemsFor_append, if_pos rfl, hempty]
        cases hpop : it.pop <;>
          simp [countsOfList, List.filterMap, hpop]
      · rw [if_neg hempty]
        simp only [Option.getD_some]
        congr 1
        unfold bucketFor addToBucket
        rw [itemsFor_append, if_pos rfl]
        simp only [DayBucket.mk.injEq]
        refine ⟨by simp, ?_, ?_, ?_⟩
        · cases hpop : it.pop <;> simp [List.filterMap_append, List.filterMap, hpop]
        · rw [List.map_append, show List.map descOf [it] = [descOf it] from rfl,
            countsOfList_append]
        · obtain ⟨it0, rest0, h0⟩ := List.exists_cons_of_ne_nil hempty
          simp [h0]
    · have hd2 : ¬ (dateKey it.dt = d) := fun hc => hd hc.symm
      rw [insertItem_lookupA_other _ _ _ hd, ih, itemsFor_append, if_neg hd2]
      simp only [List.append_nil]
      by_cases hempty : itemsFor xs d = []
      · rw [if_pos hempty, if_pos hempty]
      · rw [if_neg hempty, if_neg hempty]
        congr 1
        unfold bucketFor
        rw [itemsFor_append, if_neg hd2]
        simp

theorem buildDayMap_keys_nodup (items : List ForecastItem) :
    (keysOf (buildDayMap items)).Nodup := by
  induction items using List.reverseRecOn with
  | nil => simp [buildDayMap, keysOf]
  | append_singleton xs it ih =>
    have hfold : buildDayMap (xs ++ [it]) = insertItem (buildDayMap xs) it := by
      simp [buildDayMap, List.foldl_concat]
    rw [hfold, insertItem_keys]
    by_cases hmem : dateKey it.dt ∈ keysOf (buildDayMap xs)
    · rwa [if_pos hmem]
    · rw [if_neg hmem]
      simp [List.nodup_append, ih, hmem]

theorem lookupA_of_mem (m : List (Nat × DayBucket)) (d : Nat) (b : DayBucket)
    (hnd : (keysOf m).Nodup) (hmem : (d, b) ∈ m) :
    lookupA m d = some b := by
  induction m with
  | nil => cases hmem
  | cons p rest ih =>
    obtain ⟨k, b0⟩ := p
    simp only [keysOf, List.map_cons, List.nodup_cons] at hnd
    rcases List.mem_cons.mp hmem with heq | htail
    · cases heq
      simp [lookupA]
    · have hne : k ≠ d := by
        intro hk
        subst hk
        exact hnd.1 (List.mem_map.mpr ⟨(k, b), htail, rfl⟩)
      simp only [lookupA, if_neg hne]
      exact ih hnd.2 htail

theorem buildDayMap_mem (items : List ForecastItem) (d : Nat) (b : DayBucket)
    (hmem : (d, b) ∈ buildDayMap items) :
    itemsFor items d ≠ [] ∧ b = bucketFor items d := by
  have hl := lookupA_of_mem _ _ _ (buildDayMap_keys_nodup items) hmem
  rw [buildDayMap_lookupA] at hl
  by_cases hempty : itemsFor items d = []
  · rw [if_pos hempty] at hl; cases hl
  · rw [if_neg hempty] at hl
    exact ⟨hempty, (Option.some.injEq _ _ ▸ hl).symm⟩

theorem dailyB_mem (items : List ForecastItem) (e : DailyEntryB)
    (he : e ∈ dailyB items) :
    ∃ d, itemsFor items d ≠ [] ∧ e = summarizeBucket (bucketFor items d) := by
  obtain ⟨p, hp, hpe⟩ := List.mem_map.mp he
  have hp2 : p ∈ (buildDayMap items).insertionSort (fun a b => a.1 ≤ b.1) :=
    List.mem_of_mem_take hp
  have hp3 : p ∈ buildDayMap items :=
    (List.perm_insertionSort (fun a b => a.1 ≤ b.1) (buildDayMap items)).mem_iff.mp hp2
  obtain ⟨d, b⟩ := p
  obtain ⟨hne, hb⟩ := buildDayMap_mem items d b hp3
  exact ⟨d, hne, by rw [← hpe, hb]⟩

/-- Mean of a list of rationals in `[0,1]` is in `[0,1]`. -/
theorem mean_mem_unit (l : List ℚ) (h : ∀ x ∈ l, 0 ≤ x ∧ x ≤ 1)
    (hne : l.length ≠ 0) :
    0 ≤ l.sum / (l.length : ℚ) ∧ l.sum / (l.length : ℚ) ≤ 1 := by
  have hlen : (0 : ℚ) < (l.length : ℚ) := by
    exact_mod_cast Nat.pos_of_ne_zero hne
  have hsum0 : 0 ≤ l.sum := List.sum_nonneg fun x hx => (h x hx).1
  have hsum1 : l.sum ≤ (l.length : ℚ) := by
    have := List.sum_le_card_nsmul l 1 fun x hx => (h x hx).2
    simpa [nsmul_eq_mul] using this
  exact ⟨div_nonneg hsum0 hlen.le, (div_le_one hlen).mpr hsum1⟩

/-- Claim C5: in both provider variants every emitted daily `pop` lies in
`[0,1]`.  Open-Meteo variant: a percentage `popArr[i] ∈ [0,100]` is divided
by 100, and a missing/non-numeric entry yields `0`.  OpenWeatherMap variant:
the per-day average of fractional `pop ∈ [0,1]` samples is passed through
(and is `0` for a day with no numeric samples). -/
theorem daily_pop_in_unit_range :
    (∀ (times : List Nat) (maxArr minArr popArr : List (Option ℚ))
       (codeArr : List (Option Nat)) (i : Nat) (e : DailyEntryA),
      (∀ v, numAt popArr i = some v → 0 ≤ v ∧ v ≤ 100) →
      (dailyA times maxArr minArr popArr codeArr)[i]? = some e →
      (0 ≤ e.pop ∧ e.pop ≤ 1) ∧ (numAt popArr i = none → e.pop = 0)) ∧
    (∀ (items : List ForecastItem) (e : DailyEntryB),
      (∀ it ∈ items, ∀ p, it.pop = some p → 0 ≤ p ∧ p ≤ 1) →
      e ∈ dailyB items →
      0 ≤ e.pop ∧ e.pop ≤ 1) := by
  constructor
  · intro times maxArr minArr popArr codeArr i e hbound he
    unfold dailyA at he
    rw [List.getElem?_map, List.getElem?_enum] at he
    cases ht : times[i]? with
    | none => rw [ht] at he; cases he
    | some t =>
      rw [ht] at he
      simp only [Option.map_some'] at he
      cases he
      dsimp only
      cases hv : numAt popArr i with
      | none => simp [hv]
      | some v =>
        dsimp only
        have hb := hbound v hv
        refine ⟨⟨div_nonneg hb.1 (by norm_num), ?_⟩, by simp⟩
        rw [div_le_one (by norm_num)]
        exact hb.2
  · intro items e hbound he
    obtain ⟨d, hne, hrep⟩ := dailyB_mem items e he
    subst hrep
    unfold summarizeBucket bucketFor
    dsimp only
    by_cases hlen : ((itemsFor items d).filterMap ForecastItem.pop).length ≠ 0
    · rw [if_pos hlen]
      refine mean_mem_unit _ ?_ hlen
      intro x hx
      obtain ⟨it, hit, hpop⟩ := List.mem_filterMap.mp hx
      exact hbound it (List.mem_of_mem_filter hit) x hpop
    · rw [if_neg hlen]
      norm_num

/-- A concrete Open-Meteo daily row: `pop` percentage 50 becomes `1/2`. -/
def c5EntryA : DailyEntryA :=
  ⟨86400, ⟨none, none, none⟩, 1 / 2, "Unknown", none⟩

/-- A concrete OpenWeatherMap 3-hourly item with fractional `pop = 1/2`. -/
def c5ItemB : ForecastItem := ⟨0, 20, some (1 / 2), some "rain"⟩

/-- The daily summary produced for `c5ItemB`. -/
def c5EntryB : DailyEntryB := ⟨0, 20, 1 / 2, "Rain"⟩

/-- Witness for C5 at concrete inputs: both variants put the emitted `pop`
in `[0,1]`. -/
theorem daily_pop_in_unit_range_witness :
    (dailyA [86400] [] [] [some 50] [])[0]? = some c5EntryA ∧
    (0 ≤ c5EntryA.pop ∧ c5EntryA.pop ≤ 1) ∧
    c5EntryB ∈ dailyB [c5ItemB] ∧
    (0 ≤ c5EntryB.pop ∧ c5EntryB.pop ≤ 1) := by
  have hA : (dailyA [86400] [] [] [some 50] [])[0]? = some c5EntryA := by
    norm_num [dailyA, numAt, codeAt, c5EntryA, List.enum, codeToDescription]
  have hBmem : c5EntryB ∈ dailyB [c5ItemB] := by
    norm_num [dailyB, buildDayMap, insertItem, addToBucket, summarizeBucket,
      c5ItemB, c5EntryB, List.insertionSort, List.orderedInsert, dateKey,
      bumpCount, descOf, truthyOrElse, mostCommonDesc, pickMaxCount,
      capitalize] <;> decide
  refine ⟨hA, ?_, hBmem, ?_⟩
  · exact (daily_pop_in_unit_range.1 [86400] [] [] [some 50] [] 0 c5EntryA
      (by intro v hv; simp [numAt] at hv; subst hv; norm_num) hA).1
  · exact daily_pop_in_unit_range.2 [c5ItemB] c5EntryB
      (by
        intro it hit p hp
        simp only [List.mem_singleton] at hit
        subst hit
        simp [c5ItemB] at hp
        subst hp
        norm_num) hBmem

/-- Modelled from the spec: "`tempDay = mean(max,min)` when both present else
whichever is present; else `null`". -/
def specTempDay (maxv minv : Option ℚ) : Option ℚ :=
  match maxv, minv with
  | some a, some b => some ((a + b) / 2)
  | some a, none => some a
  | none, some b => some b
  | none, none => none

/-- Claim C7: in the daily-granularity (Open-Meteo) variant the emitted
`temp.day` is the arithmetic mean of the day's max and min when both are
numbers, otherwise whichever of the two is present, otherwise null; and
`temp.max`/`temp.min` pass the numeric entries through. -/
theorem dailyA_tempDay_spec (times : List Nat)
    (maxArr minArr popArr : List (Option ℚ)) (codeArr : List (Option Nat))
    (i : Nat) (e : DailyEntryA)
    (he : (dailyA times maxArr minArr popArr codeArr)[i]? = some e) :
    e.temp.day = specTempDay (numAt maxArr i) (numAt minArr i) ∧
    e.temp.max = numAt maxArr i ∧ e.temp.min = numAt minArr i := by
  unfold dailyA at he
  rw [List.getElem?_map, List.getElem?_enum] at he
  cases ht : times[i]? with
  | none => rw [ht] at he; cases he
  | some t =>
    rw [ht] at he
    simp only [Option.map_some'] at he
    cases he
    refine ⟨?_, rfl, rfl⟩
    dsimp only
    unfold specTempDay
    cases numAt maxArr i <;> cases numAt minArr i <;> rfl

/-- Witness for C7 at a concrete input: `max = 10`, `min = 20` gives
`temp.day = 15`. -/
theorem dailyA_tempDay_spec_witness :
    (dailyA [86400] [some 10] [some 20] [] [])[0]? =
      some ⟨86400, ⟨some 15, some 10, some 20⟩, 0, "Unknown", none⟩ ∧
    (⟨86400, ⟨some 15, some 10, some 20⟩, 0, "Unknown", none⟩ :
      DailyEntryA).temp.day = specTempDay (numAt [some 10] 0) (numAt [some 20] 0) := by
  have hA : (dailyA [86400] [some 10] [some 20] [] [])[0]? =
      some ⟨86400, ⟨some 15, some 10, some 20⟩, 0, "Unknown", none⟩ := by
    norm_num [dailyA, numAt, codeAt, List.enum, codeToDescription]
  exact ⟨hA, (dailyA_tempDay_spec [86400] [some 10] [some 20] [] [] 0 _ hA).1⟩

/-! ### Claim C6: modal daily description -/

/-- First-seen-order deduplication of a string list (the insertion order of
the keys of the modelled count record). -/
def firstSeenDedup (xs : List String) : List String :=
  xs.foldl (fun acc x => if x ∈ acc then acc else acc ++ [x]) []

/-- Specification-side definition, following the spec's words: "the modal
(most frequent) weather-description string among samples for that date, ties
broken by first-encountered order" — the first-encountered string whose
occurrence count is maximal (`none` for an empty sample list). -/
def specModal (xs : List String) : Option String :=
  match firstSeenDedup xs with
  | [] => none
  | y :: ys =>
    some (ys.foldl (fun best z => if xs.count z > xs.count best then z else best) y)

theorem firstSeenDedup_append (xs : List String) (y : String) :
    firstSeenDedup (xs ++ [y]) =
      if y ∈ firstSeenDedup xs then firstSeenDedup xs
      else firstSeenDedup xs ++ [y] := by
  simp [firstSeenDedup, List.foldl_concat]

theorem mem_firstSeenDedup (xs : List String) (k : String) :
    k ∈ firstSeenDedup xs ↔ k ∈ xs := by
  induction xs using List.reverseRecOn with
  | nil => simp [firstSeenDedup]
  | append_singleton l y ih =>
    rw [firstSeenDedup_append]
    by_cases hy : y ∈ firstSeenDedup l
    · rw [if_pos hy]
      rw [ih]
      simp only [List.mem_append, List.mem_singleton]
      constructor
      · exact Or.inl
      · rintro (h | rfl)
        · exact h
        · exact ih.mp hy
    · rw [if_neg hy]
      simp [ih]

theorem nodup_firstSeenDedup (xs : List String) :
    (firstSeenDedup xs).Nodup := by
  induction xs using List.reverseRecOn with
  | nil => simp [firstSeenDedup]
  | append_singleton l y ih =>
    rw [firstSeenDedup_append]
    by_cases hy : y ∈ firstSeenDedup l
    · rwa [if_pos hy]
    · rw [if_neg hy]
      simp [List.nodup_append, ih, hy]

theorem bumpCount_map_mem (L : List String) (f g : String → Nat) (y : String)
    (hnd : L.Nodup) (hy : y ∈ L)
    (hg : ∀ k ∈ L, g k = if k = y then f k + 1 else f k) :
    bumpCount (L.map fun k => (k, f k)) y = L.map fun k => (k, g k) := by
  induction L with
  | nil => cases hy
  | cons k0 L' ih =>
    simp only [List.map_cons, bumpCount]
    simp only [List.nodup_cons] at hnd
    by_cases hk0 : k0 = y
    · subst hk0
      rw [if_pos rfl]
      have hgk0 : g k0 = f k0 + 1 := by
        rw [hg k0 (List.mem_cons_self _ _), if_pos rfl]
      rw [hgk0]
      congr 1
      apply List.map_congr_left
      intro k hk
      have hkne : k ≠ k0 := fun hc => hnd.1 (hc ▸ hk)
      rw [hg k (List.mem_cons_of_mem _ hk), if_neg hkne]
    · rw [if_neg hk0]
      have hy' : y ∈ L' := by
        rcases List.mem_cons.mp hy with h | h
        · exact absurd h.symm hk0
        · exact h
      rw [ih hnd.2 hy' fun k hk => hg k (List.mem_cons_of_mem _ hk)]
      congr 1
      rw [hg k0 (List.mem_cons_self _ _), if_neg hk0]

theorem bumpCount_map_not_mem (L : List String) (f : String → Nat) (y : String)
    (hy : y ∉ L) :
    bumpCount (L.map fun k => (k, f k)) y = (L.map fun k => (k, f k)) ++ [(y, 1)] := by
  induction L with
  | nil => rfl
  | cons k0 L' ih =>
    simp only [List.map_cons, bumpCount, List.cons_append]
    have hk0 : k0 ≠ y := fun hc => hy (hc ▸ List.mem_cons_self _ _)
    rw [if_neg hk0, ih fun hc => hy (List.mem_cons_of_mem _ hc)]

theorem countsOfList_eq (xs : List String) :
    countsOfList xs = (firstSeenDedup xs).map fun k => (k, xs.count k) := by
  induction xs using List.reverseRecOn with
  | nil => rfl
  | append_singleton l y ih =>
    rw [countsOfList_append, ih, firstSeenDedup_append]
    by_cases hy : y ∈ firstSeenDedup l
    · rw [if_pos hy]
      refine bumpCount_map_mem _ _ _ _ (nodup_firstSeenDedup l) hy ?_
      intro k _
      by_cases hk : k = y
      · subst hk
        rw [if_pos rfl]
        simp [List.count_append]
      · rw [if_neg hk]
        simp [List.count_append, List.count_cons, hk]
    · rw [if_neg hy]
      rw [bumpCount_map_not_mem _ _ _ hy, List.map_append]
      congr 1
      · apply List.map_congr_left
        intro k hk
        have hkne : k ≠ y := fun hc => hy (hc ▸ hk)
        simp [List.count_append, List.count_cons, hkne]
      · have hyl : y ∉ l := fun hc => hy ((mem_firstSeenDedup l y).mpr hc)
        simp [List.count_append, List.count_eq_zero.mpr hyl]

theorem pickMax_foldl_map (L : List String) (f : String → Nat) (b : String) :
    (L.map fun k => (k, f k)).foldl (fun best q => if q.2 > best.2 then q else best)
        (b, f b) =
      (L.foldl (fun best z => if f z > f best then z else best) b,
       f (L.foldl (fun best z => if f z > f best then z else best) b)) := by
  induction L generalizing b with
  | nil => rfl
  | cons z L' ih =>
    simp only [List.map_cons, List.foldl_cons]
    by_cases hz : f z > f b
    · rw [if_pos hz, if_pos hz]
      exact ih z
    · rw [if_neg hz, if_neg hz]
      exact ih b

theorem mostCommonDesc_eq_specModal (xs : List String) :
    mostCommonDesc (countsOfList xs) = truthyOrElse (specModal xs) "clear" := by
  rw [countsOfList_eq]
  unfold specModal mostCommonDesc pickMaxCount
  cases hd : firstSeenDedup xs with
  | nil => rfl
  | cons y ys =>
    simp only [List.map_cons]
    rw [pickMax_foldl_map ys (fun k => xs.count k) y]
    rfl

/-- Claim C6, amended: the description emitted for a date bucket equals
`capitalize` of the modal *lowercased* sample description of that bucket
(an absent or empty sample description standing in as "clear"), ties broken
by first-encountered order. -/
theorem dailyB_description_modal (items : List ForecastItem) (e : DailyEntryB)
    (he : e ∈ dailyB items) :
    itemsFor items (dateKey e.dt) ≠ [] ∧
    e.description =
      capitalize (truthyOrElse
        (specModal ((itemsFor items (dateKey e.dt)).map descOf)) "clear") := by
  obtain ⟨d, hne, hrep⟩ := dailyB_mem items e he
  obtain ⟨it0, rest0, h0⟩ := List.exists_cons_of_ne_nil hne
  have hit0 : it0 ∈ itemsFor items d := by
    rw [h0]; exact List.mem_cons_self _ _
  have hd0 : dateKey it0.dt = d :=
    of_decide_eq_true (List.mem_filter.mp hit0).2
  have hedt : e.dt = it0.dt := by
    rw [hrep]
    unfold summarizeBucket bucketFor
    dsimp only
    rw [h0]
    rfl
  have hkey : dateKey e.dt = d := by rw [hedt, hd0]
  rw [hkey]
  refine ⟨hne, ?_⟩
  rw [hrep]
  unfold summarizeBucket bucketFor
  dsimp only
  rw [mostCommonDesc_eq_specModal]

/-- Two 3-hourly samples on the same UTC day, both described "light rain". -/
def c6Items : List ForecastItem :=
  [⟨0, 20, none, some "light rain"⟩, ⟨3600, 21, none, some "light rain"⟩]

/-- Counterexample to C6 as stated: the emitted daily description is
"Light rain" (capitalized), which differs from the most frequent description
string among the bucket's samples, "light rain". -/
theorem dailyB_description_modal_counterexample :
    (dailyB c6Items).map DailyEntryB.description = ["Light rain"] ∧
    specModal (c6Items.map fun it => it.description.getD "") = some "light rain" ∧
    ("Light rain" : String) ≠ "light rain" := by
  refine ⟨?_, by decide, by decide⟩
  decide

/-- The daily summary produced for `c6Items`. -/
def c6Entry : DailyEntryB := ⟨0, 41 / 2, 0, "Light rain"⟩

/-- Witness for the amended C6 at the concrete input `c6Items`. -/
theorem dailyB_description_modal_witness :
    c6Entry ∈ dailyB c6Items ∧
    itemsFor c6Items (dateKey c6Entry.dt) ≠ [] ∧
    c6Entry.description =
      capitalize (truthyOrElse
        (specModal ((itemsFor c6Items (dateKey c6Entry.dt)).map descOf)) "clear") := by
  have he : c6Entry ∈ dailyB c6Items := by
    norm_num [dailyB, buildDayMap, insertItem, addToBucket, summarizeBucket,
      c6Items, c6Entry, List.insertionSort, List.orderedInsert, dateKey,
      bumpCount, descOf, truthyOrElse, mostCommonDesc, pickMaxCount,
      capitalize, jsToLower] <;> decide
  exact ⟨he, dailyB_description_modal c6Items c6Entry he⟩

/-! ## `sanitizeSuggestion` (src/app/page.tsx, lines 82–94) -/

/-- Step 1a: `replace(/\r\n/g, '\n')`. -/
def crlfToLf : List Char → List Char
  | '\r' :: '\n' :: rest => '\n' :: crlfToLf rest
  | c :: rest => c :: crlfToLf rest
  | [] => []

theorem dropWhile_length_le (p : Char → Bool) :
    (l : List Char) → (l.dropWhile p).length ≤ l.length
  | [] => Nat.le_refl _
  | c :: r => by
    simp only [List.dropWhile]
    cases p c
    · simp
    · simpa using Nat.le_succ_of_le (dropWhile_length_le p r)

/-- Step 1b: `replace(/\*\s*\*/g, '**')`.  The global replace scans left to
right: at a `'*'`, if whitespace then another `'*'` follows, that whole match
becomes `"**"` and scanning resumes after it; otherwise the `'*'` is kept and
scanning resumes at the next character. -/
def starJoin : List Char → List Char
  | '*' :: rest =>
    match h : rest.dropWhile jsWhitespace with
    | '*' :: rest2 => '*' :: '*' :: starJoin rest2
    | _ => '*' :: starJoin rest
  | c :: rest => c :: starJoin rest
  | [] => []
termination_by cs => cs.length
decreasing_by
  · have h1 := dropWhile_length_le jsWhitespace rest
    rw [h] at h1
    simp only [List.length_cons] at *
    omega
  · simp
  · simp

/-- Step 2: `replace(/\n{3,}/g, '\n\n')` — a maximal run of 3 or more
newlines becomes exactly two. -/
def collapseNewlines : List Char → List Char
  | '\n' :: rest =>
    (if (rest.takeWhile (fun c => c == '\n')).length + 1 ≥ 3 then ['\n', '\n']
     else '\n' :: rest.takeWhile (fun c => c == '\n')) ++
      collapseNewlines (rest.dropWhile (fun c => c == '\n'))
  | c :: rest => c :: collapseNewlines rest
  | [] => []
termination_by cs => cs.length
decreasing_by
  · have h1 := dropWhile_length_le (fun c => c == '\n') rest
    simp only [List.length_cons]
    omega
  · simp

/-- Splitting on `'\n'` (JS `split('\n')`). -/
def splitLines : List Char → List (List Char)
  | [] => [[]]
  | '\n' :: rest => [] :: splitLines rest
  | c :: rest =>
    match splitLines rest with
    | l :: ls => (c :: l) :: ls
    | [] => [[c]]

/-- Joining with `'\n'` (JS `join('\n')`). -/
def joinNl : List (List Char) → List Char
  | [] => []
  | [l] => l
  | l :: ls => l ++ '\n' :: joinNl ls

/-- Step 3: `split('\n').map(l => l.trim()).join('\n')`. -/
def trimEachLine (cs : List Char) : List Char :=
  joinNl ((splitLines cs).map jsTrimList)

/-- Step 4: `replace(/​/g, '')`. -/
def stripZeroWidth (cs : List Char) : List Char :=
  cs.filter (fun c => !(c.toNat == 0x200B))

/-- Lines 82–94, the whole sanitizer on a string's characters: normalize
CRLF, join spaced star pairs, collapse 3+ newlines to 2, trim each line,
strip zero-width spaces, trim overall. -/
def sanitizeChars (cs : List Char) : List Char :=
  jsTrimList (stripZeroWidth (trimEachLine (collapseNewlines (starJoin (crlfToLf cs)))))

/-- `sanitizeSuggestion`: `null`/`undefined` pass through as `null`; a string
is sanitized (the page only ever passes strings or null). -/
def sanitizeSuggestion : Option String → Option String
  | none => none
  | some s => some ⟨sanitizeChars s.data⟩

/-! ## `extractSections` (src/app/page.tsx, lines 203–241)

The scan of `/\*\*(.+?)\*\*\s*[:\-–—]?\s*([\s\S]*?)(?=(\*\*.+?\*\*\s*[:\-–—]?\s*)|$)/g`
is modelled by a hand scanner with the same semantics: a match begins at
`"**"` followed by a lazily-matched label (at least one non-line-terminator
character, up to the first `"**"`), then optional whitespace, one optional
punctuation mark and more whitespace, then lazily-matched content that stops
at the first position where another label begins (the lookahead) or at the
end of the string.  After the label's closing `"**"` the remaining parts
always succeed, so the lazy label closes at the first possible position. -/

/-- JS `.`'s excluded line terminators. -/
def isLineTerm (c : Char) : Bool :=
  c == '\n' || c == '\r' || c.toNat == 0x2028 || c.toNat == 0x2029

/-- The optional punctuation after a label: `[:\-–—]`. -/
def isLabelPunct (c : Char) : Bool :=
  c == ':' || c == '-' || c.toNat == 0x2013 || c.toNat == 0x2014

/-- Lazy `(.+?)\*\*` after an opening `"**"`: accumulate non-line-terminator
characters, closing at the first `"**"` once at least one character has been
taken.  Returns the label and the characters after its closing `"**"`. -/
def scanLabel (acc : List Char) : List Char → Option (List Char × List Char)
  | '*' :: '*' :: rest =>
    if acc.isEmpty then scanLabel ('*' :: acc) ('*' :: rest)
    else some (acc.reverse, rest)
  | c :: rest => if isLineTerm c then none else scanLabel (c :: acc) rest
  | [] => none

/-- Does a full label pattern `\*\*.+?\*\*` begin here?  (This is also what
the content lookahead tests: its trailing `\s*[:\-–—]?\s*` always matches.) -/
def isLabelStart : List Char → Bool
  | '*' :: '*' :: rest => (scanLabel [] rest).isSome
  | _ => false

/-- `\s*[:\-–—]?\s*` after the label (greedy, no backtracking needed since
what follows always succeeds). -/
def eatTrail (cs : List Char) : List Char :=
  match cs.dropWhile jsWhitespace with
  | c :: r => if isLabelPunct c then r.dropWhile jsWhitespace else c :: r
  | [] => []

/-- Lazy `([\s\S]*?)` with the lookahead: content runs to the first position
where another label begins, or to the end. -/
def scanContent : List Char → List Char × List Char
  | [] => ([], [])
  | c :: rest =>
    if isLabelStart (c :: rest) then ([], c :: rest)
    else
      let p := scanContent rest
      (c :: p.1, p.2)

theorem scanLabel_length (acc cs label after : List Char)
    (h : scanLabel acc cs = some (label, after)) : after.length + 2 ≤ cs.length := by
  induction acc, cs using scanLabel.induct with
  | case1 acc rest hemp ih =>
    rw [scanLabel, if_pos hemp] at h
    have := ih h
    simp only [List.length_cons] at *
    omega
  | case2 acc rest hemp =>
    rw [scanLabel, if_neg hemp] at h
    cases h
    simp
  | case3 acc c rest hne hlt =>
    rw [scanLabel] at h
    · rw [if_pos hlt] at h
      cases h
    · exact hne
  | case4 acc c rest hne hlt ih =>
    rw [scanLabel] at h
    · rw [if_neg hlt] at h
      have := ih h
      simp only [List.length_cons] at *
      omega
    · exact hne
  | case5 acc =>
    rw [scanLabel] at h
    cases h

theorem eatTrail_length (cs : List Char) : (eatTrail cs).length ≤ cs.length := by
  unfold eatTrail
  have h1 := dropWhile_length_le jsWhitespace cs
  cases hd : cs.dropWhile jsWhitespace with
  | nil => simp
  | cons c r =>
    rw [hd] at h1
    dsimp only
    by_cases hp : isLabelPunct c = true
    · rw [if_pos hp]
      have h2 := dropWhile_length_le jsWhitespace r
      simp only [List.length_cons] at h1
      omega
    · rw [if_neg hp]
      exact h1

theorem scanContent_length (cs : List Char) :
    (scanContent cs).2.length ≤ cs.length := by
  induction cs with
  | nil => simp [scanContent]
  | cons c rest ih =>
    rw [scanContent]
    by_cases hs : isLabelStart (c :: rest) = true
    · rw [if_pos hs]
    · rw [if_neg hs]
      simpa using Nat.le_succ_of_le ih

/-- The global regex scan: the engine searches for the next position where a
label begins (advancing one character at a time past failures), then captures
the label, skips the trailing separator, and captures content up to the next
label start or end of input; it then resumes at that position.  Returns the
(label, content) capture pairs in order. -/
def findMatches : List Char → List (List Char × List Char)
  | '*' :: '*' :: rest =>
    match hsl : scanLabel [] rest with
    | some (label, afterClose) =>
      let p := scanContent (eatTrail afterClose)
      (label, p.1) :: findMatches p.2
    | none => findMatches ('*' :: rest)
  | _ :: rest => findMatches rest
  | [] => []
termination_by cs => cs.length
decreasing_by
  · have h1 := scanLabel_length [] rest _ _ hsl
    have h2 := eatTrail_length afterClose
    have h3 := scanContent_length (eatTrail afterClose)
    simp only [List.length_cons]
    omega
  · simp
  · simp

/-- `sections[label]` lookup in the modelled record (an association list in
insertion order; the keys are arbitrary label strings, looked up exactly). -/
def lookupSection : List (String × String) → String → Option String
  | [], _ => none
  | (k, v) :: rest, lab => if k = lab then some v else lookupSection rest lab

/-- `sections[label] = content`: replace in place when the key exists,
append a new key otherwise. -/
def setSection : List (String × String) → String → String → List (String × String)
  | [], lab, c => [(lab, c)]
  | (k, v) :: rest, lab, c =>
    if k = lab then (k, c) :: rest else (k, v) :: setSection rest lab c

/-- Lines 213–223, the loop body for one regex match: trim label and
content; `if (!sections[label])` (key absent *or* holding the empty string)
store the content and push the label onto `order`; otherwise append
`'\n\n' + content` to the stored content. -/
def insertMatch (st : List String × List (String × String))
    (m : List Char × List Char) : List String × List (String × String) :=
  let label := jsTrimStr ⟨m.1⟩
  let content := jsTrimStr ⟨m.2⟩
  match lookupSection st.2 label with
  | none => (st.1 ++ [label], st.2 ++ [(label, content)])
  | some c =>
    if c = "" then (st.1 ++ [label], setSection st.2 label content)
    else (st.1, setSection st.2 label (c ++ "\n\n" ++ content))

/-- Lines 227, the fallback split: `raw.split(/\n{2,}/)` — maximal runs of
two or more newlines separate blocks. -/
def splitBlocks : List Char → List (List Char)
  | '\n' :: '\n' :: rest =>
    [] :: splitBlocks (rest.dropWhile (fun c => c == '\n'))
  | c :: rest =>
    match splitBlocks rest with
    | b :: bs => (c :: b) :: bs
    | [] => [[c]]
  | [] => [[]]
termination_by cs => cs.length
decreasing_by
  · have h1 := dropWhile_length_le (fun c => c == '\n') rest
    simp only [List.length_cons]
    omega
  · simp

/-- Line 227: `raw.split(/\n{2,}/).map(b => b.trim()).filter(Boolean)`. -/
def blocksOf (s : String) : List String :=
  ((splitBlocks s.data).map fun b => jsTrimStr ⟨b⟩).filter (fun b => b ≠ "")

/-- Lines 232–236: `blocks.forEach((b, i) => { key = i === 0 ? 'Overview' :
`Section ${i+1}`; sections[key] = b; order.push(key); })`. -/
def forEachBlocks (i : Nat) (blocks : List String)
    (st : List String × List (String × String)) :
    List String × List (String × String) :=
  match blocks with
  | [] => st
  | b :: rest =>
    let key := if i = 0 then "Overview" else "Section " ++ toString (i + 1)
    forEachBlocks (i + 1) rest (st.1 ++ [key], setSection st.2 key b)

/-- Lines 203–241: `extractSections`.  A nullish or empty (falsy) input gives
the empty result.  Otherwise the regex matches are folded into `(order,
sections)`; when no labelled section was found the blank-line fallback
applies: exactly one block becomes a single "Recommendations" section,
otherwise "Overview", "Section 2", "Section 3", … . -/
def extractSections (raw : Option String) :
    List String × List (String × String) :=
  match raw with
  | none => ([], [])
  | some s =>
    if s = "" then ([], [])
    else
      let st := (findMatches s.data).foldl insertMatch ([], [])
      if st.1.isEmpty then
        let blocks := blocksOf s
        if blocks.length = 1 then
          (["Recommendations"], [("Recommendations", blocks.headD "")])
        else forEachBlocks 0 blocks ([], [])
      else st

/-! ### Claims C8/C9: the section fold and the fallback -/

/-- The trimmed labels of a match list, in match order. -/
def labelsOf (ms : List (List Char × List Char)) : List String :=
  ms.map fun m => jsTrimStr ⟨m.1⟩

/-- The trimmed contents carried by a given label, in match order. -/
def contentsFor (ms : List (List Char × List Char)) (lab : String) : List String :=
  (ms.filter fun m => jsTrimStr ⟨m.1⟩ = lab).map fun m => jsTrimStr ⟨m.2⟩

/-- Blank-line concatenation of a list of contents. -/
def joinBlank : List String → String
  | [] => ""
  | [x] => x
  | x :: xs => x ++ "\n\n" ++ joinBlank xs

theorem joinBlank_append (xs : List String) (y : String) (hxs : xs ≠ []) :
    joinBlank (xs ++ [y]) = joinBlank xs ++ "\n\n" ++ y := by
  induction xs with
  | nil => exact absurd rfl hxs
  | cons x xs ih =>
    cases xs with
    | nil => rfl
    | cons x2 xs2 =>
      rw [List.cons_append]
      rw [show joinBlank (x :: (x2 :: xs2 ++ [y])) =
        x ++ "\n\n" ++ joinBlank (x2 :: xs2 ++ [y]) from rfl]
      rw [show (x2 :: xs2 ++ [y] : List String) = (x2 :: xs2) ++ [y] from rfl]
      rw [ih (by simp)]
      rw [show joinBlank (x :: x2 :: xs2) = x ++ "\n\n" ++ joinBlank (x2 :: xs2) from rfl]
      simp [String.append_assoc]

theorem append_ne_empty_left (a b : String) (ha : a ≠ "") : a ++ b ≠ "" := by
  cases a with
  | mk da =>
    cases b with
    | mk db =>
      intro hc
      have hd : da ++ db = [] := congrArg String.data hc
      rw [List.append_eq_nil] at hd
      exact ha (by rw [show ("" : String) = ⟨[]⟩ from rfl, hd.1])

theorem joinBlank_ne_empty (xs : List String) (hx : xs ≠ [])
    (hne : ∀ x ∈ xs, x ≠ "") : joinBlank xs ≠ "" := by
  cases xs with
  | nil => exact absurd rfl hx
  | cons x xs =>
    cases xs with
    | nil => exact hne x (List.mem_cons_self _ _)
    | cons x2 xs2 =>
      rw [show joinBlank (x :: x2 :: xs2) =
        x ++ "\n\n" ++ joinBlank (x2 :: xs2) from rfl]
      exact append_ne_empty_left _ _
        (append_ne_empty_left _ _ (hne x (List.mem_cons_self _ _)))

theorem lookupSection_set_eq (sec : List (String × String)) (lab v : String) :
    lookupSection (setSection sec lab v) lab = some v := by
  induction sec with
  | nil => simp [setSection, lookupSection]
  | cons p rest ih =>
    obtain ⟨k, w⟩ := p
    by_cases hk : k = lab
    · subst hk
      simp [setSection, lookupSection]
    · simp [setSection, lookupSection, hk, ih]

theorem lookupSection_set_ne (sec : List (String × String)) (lab v lab2 : String)
    (h : lab2 ≠ lab) :
    lookupSection (setSection sec lab v) lab2 = lookupSection sec lab2 := by
  induction sec with
  | nil =>
    simp only [setSection, lookupSection]
    rw [if_neg (fun hc => h hc.symm)]
  | cons p rest ih =>
    obtain ⟨k, w⟩ := p
    by_cases hk : k = lab
    · subst hk
      simp only [setSection, if_pos rfl, lookupSection]
      rw [if_neg (fun hc => h hc.symm), if_neg (fun hc => h hc.symm)]
    · by_cases hk2 : k = lab2
      · subst hk2
        simp [setSection, lookupSection, hk]
      · simp [setSection, lookupSection, hk, hk2, ih]

theorem lookupSection_append_of_none (sec : List (String × String)) (lab v : String)
    (h : lookupSection sec lab = none) :
    lookupSection (sec ++ [(lab, v)]) lab = some v := by
  induction sec with
  | nil => simp [lookupSection]
  | cons p rest ih =>
    obtain ⟨k, w⟩ := p
    by_cases hk : k = lab
    · subst hk
      simp [lookupSection] at h
    · simp only [lookupSection, if_neg hk] at h
      simp only [List.cons_append, lookupSection, if_neg hk]
      exact ih h

theorem lookupSection_append_other (sec : List (String × String)) (lab v lab2 : String)
    (h : lab2 ≠ lab) :
    lookupSection (sec ++ [(lab, v)]) lab2 = lookupSection sec lab2 := by
  induction sec with
  | nil =>
    simp only [List.nil_append, lookupSection]
    rw [if_neg (fun hc => h hc.symm)]
  | cons p rest ih =>
    obtain ⟨k, w⟩ := p
    by_cases hk2 : k = lab2
    · subst hk2
      simp [lookupSection]
    · simp only [List.cons_append, lookupSection, if_neg hk2]
      exact ih

/-- A label occurring in a match list has a non-empty content list. -/
theorem contentsFor_ne_empty (ms : List (List Char × List Char)) (lab : String)
    (h : lab ∈ labelsOf ms) : contentsFor ms lab ≠ [] := by
  obtain ⟨m2, hm2, hl⟩ := List.mem_map.mp h
  simp only [contentsFor]
  intro hc
  rw [List.map_eq_nil_iff] at hc
  have hm2f : m2 ∈ ms.filter fun m => jsTrimStr ⟨m.1⟩ = lab :=
    List.mem_filter.mpr ⟨hm2, by simp [hl]⟩
  rw [hc] at hm2f
  cases hm2f

/-- A label not occurring in a match list has an empty content list. -/
theorem contentsFor_of_not_mem (ms : List (List Char × List Char)) (lab : String)
    (h : lab ∉ labelsOf ms) : contentsFor ms lab = [] := by
  simp only [contentsFor, List.map_eq_nil_iff, List.filter_eq_nil_iff]
  intro m hm hc
  exact h (List.mem_map.mpr ⟨m, hm, of_decide_eq_true hc⟩)

/-- Characterization of the section fold on a match list whose trimmed
contents are all non-empty: the order is the first-seen deduplication of the
trimmed labels, and each label's stored content is the blank-line join of all
its contents. -/
theorem sections_fold_spec (ms : List (List Char × List Char))
    (hne : ∀ m ∈ ms, jsTrimStr ⟨m.2⟩ ≠ "") :
    (ms.foldl insertMatch ([], [])).1 = firstSeenDedup (labelsOf ms) ∧
    (∀ lab, lookupSection (ms.foldl insertMatch ([], [])).2 lab =
      if lab ∈ labelsOf ms then some (joinBlank (contentsFor ms lab)) else none) := by
  induction ms using List.reverseRecOn with
  | nil =>
    constructor
    · rfl
    · intro lab
      simp [labelsOf, lookupSection, firstSeenDedup]
  | append_singleton ms m ihfull =>
    have hne' : ∀ m2 ∈ ms, jsTrimStr ⟨m2.2⟩ ≠ "" := by
      intro m2 hm2
      exact hne m2 (List.mem_append_left _ hm2)
    have hnem : jsTrimStr ⟨m.2⟩ ≠ "" :=
      hne m (List.mem_append_right _ (List.mem_singleton.mpr rfl))
    obtain ⟨ih1, ih2⟩ := ihfull hne'
    have hfold : (ms ++ [m]).foldl insertMatch ([], []) =
        insertMatch (ms.foldl insertMatch ([], [])) m := List.foldl_concat _ _ _ _
    have hlabels : labelsOf (ms ++ [m]) = labelsOf ms ++ [jsTrimStr ⟨m.1⟩] := by
      simp [labelsOf]
    have hcontents : ∀ lab, contentsFor (ms ++ [m]) lab =
        contentsFor ms lab ++
          (if jsTrimStr ⟨m.1⟩ = lab then [jsTrimStr ⟨m.2⟩] else []) := by
      intro lab
      simp only [contentsFor, List.filter_append, List.map_append]
      congr 1
      by_cases hl : jsTrimStr ⟨m.1⟩ = lab
      · simp [List.filter, hl]
      · simp [List.filter, hl]
    rw [hfold, hlabels]
    by_cases hmem : jsTrimStr ⟨m.1⟩ ∈ labelsOf ms
    · -- the label repeats: content is appended, order unchanged
      have hlook := ih2 (jsTrimStr ⟨m.1⟩)
      rw [if_pos hmem] at hlook
      have hcne : joinBlank (contentsFor ms (jsTrimStr ⟨m.1⟩)) ≠ "" := by
        apply joinBlank_ne_empty _ (contentsFor_ne_empty ms _ hmem)
        intro x hx
        obtain ⟨m2, hm2, hm2e⟩ := List.mem_map.mp hx
        rw [← hm2e]
        exact hne' m2 (List.mem_of_mem_filter hm2)
      simp only [insertMatch]
      rw [hlook]
      dsimp only
      rw [if_neg hcne]
      constructor
      · rw [ih1, firstSeenDedup_append,
          if_pos ((mem_firstSeenDedup _ _).mpr hmem)]
      · intro lab
        by_cases hl : lab = jsTrimStr ⟨m.1⟩
        · subst hl
          rw [lookupSection_set_eq]
          rw [if_pos (List.mem_append_left _ hmem)]
          rw [hcontents, if_pos rfl,
            joinBlank_append _ _ (contentsFor_ne_empty ms _ hmem)]
        · rw [lookupSection_set_ne _ _ _ _ hl, ih2 lab, hcontents]
          rw [if_neg (show ¬ (jsTrimStr ⟨m.1⟩ = lab) from fun hc => hl hc.symm),
            List.append_nil]
          have : (lab ∈ labelsOf ms ++ [jsTrimStr ⟨m.1⟩]) ↔ lab ∈ labelsOf ms := by
            simp only [List.mem_append, List.mem_singleton]
            constructor
            · rintro (h | h)
              · exact h
              · exact absurd h hl
            · exact Or.inl
          by_cases hin : lab ∈ labelsOf ms
          · rw [if_pos hin, if_pos (this.mpr hin)]
          · rw [if_neg hin, if_neg (fun hc => hin (this.mp hc))]
    · -- a fresh label: stored and pushed
      have hlook := ih2 (jsTrimStr ⟨m.1⟩)
      rw [if_neg hmem] at hlook
      simp only [insertMatch]
      rw [hlook]
      dsimp only
      constructor
      · rw [ih1, firstSeenDedup_append,
          if_neg (fun hc => hmem ((mem_firstSeenDedup _ _).mp hc))]
      · intro lab
        by_cases hl : lab = jsTrimStr ⟨m.1⟩
        · subst hl
          rw [lookupSection_append_of_none _ _ _ hlook]
          rw [if_pos (List.mem_append_right _ (List.mem_singleton.mpr rfl))]
          rw [hcontents, if_pos rfl, contentsFor_of_not_mem ms _ hmem]
          rfl
        · rw [lookupSection_append_other _ _ _ _ hl, ih2 lab, hcontents]
          rw [if_neg (show ¬ (jsTrimStr ⟨m.1⟩ = lab) from fun hc => hl hc.symm),
            List.append_nil]
          have : (lab ∈ labelsOf ms ++ [jsTrimStr ⟨m.1⟩]) ↔ lab ∈ labelsOf ms := by
            simp only [List.mem_append, List.mem_singleton]
            constructor
            · rintro (h | h)
              · exact h
              · exact absurd h hl
            · exact Or.inl
          by_cases hin : lab ∈ labelsOf ms
          · rw [if_pos hin, if_pos (this.mpr hin)]
          · rw [if_neg hin, if_neg (fun hc => hin (this.mp hc))]

/-- Claim C8 (amended): for every input string whose scan finds at least one
labelled section and in which every match's trimmed content is non-empty, the
returned order lists each label at most once, in first-seen order (it is the
first-seen deduplication of the trimmed labels, with no duplicates), and each
label's stored section content is the blank-line-separated concatenation of
all contents matched under that label — repeats append, never overwrite or
re-add.  (When a repeated label's stored content is the empty string the
falsy `!sections[label]` check re-admits it instead: see the
counterexample.) -/
theorem extractSections_order_spec (s : String)
    (hms : findMatches s.data ≠ [])
    (hne : ∀ m ∈ findMatches s.data, jsTrimStr ⟨m.2⟩ ≠ "") :
    (extractSections (some s)).1 = firstSeenDedup (labelsOf (findMatches s.data)) ∧
    (extractSections (some s)).1.Nodup ∧
    (∀ lab, lookupSection (extractSections (some s)).2 lab =
      if lab ∈ labelsOf (findMatches s.data)
      then some (joinBlank (contentsFor (findMatches s.data) lab)) else none) := by
  have hsne : s ≠ "" := by
    intro hc
    subst hc
    apply hms
    rw [show ("" : String).data = [] from rfl]
    simp [findMatches]
  obtain ⟨h1, h2⟩ := sections_fold_spec (findMatches s.data) hne
  have hordne : ((findMatches s.data).foldl insertMatch ([], [])).1 ≠ [] := by
    rw [h1]
    intro hc
    cases hm : findMatches s.data with
    | nil => exact hms hm
    | cons m ms =>
      have hmem : jsTrimStr ⟨m.1⟩ ∈ firstSeenDedup (labelsOf (findMatches s.data)) := by
        apply (mem_firstSeenDedup _ _).mpr
        rw [hm]
        simp [labelsOf]
      rw [hc] at hmem
      cases hmem
  have hext : extractSections (some s) = (findMatches s.data).foldl insertMatch ([], []) := by
    unfold extractSections
    dsimp only
    rw [if_neg hsne]
    rw [if_neg (by
      rw [List.isEmpty_iff]
      exact hordne)]
  rw [hext]
  exact ⟨h1, h1 ▸ nodup_firstSeenDedup _, h2⟩

/-- Counterexample to C8 as stated: with input
`"**A**: **B**: x **A**: y"` the first `A` match has empty content, so the
falsy `!sections[label]` check treats the repeated `A` as unseen and pushes
it onto the order again — the order is `["A", "B", "A"]`, containing `A`
twice. -/
theorem extractSections_order_counterexample :
    (extractSections (some "**A**: **B**: x **A**: y")).1 = ["A", "B", "A"] ∧
    ¬ (extractSections (some "**A**: **B**: x **A**: y")).1.Nodup := by
  have h : (extractSections (some "**A**: **B**: x **A**: y")).1 = ["A", "B", "A"] := by
    simp [extractSections, findMatches, scanLabel, scanContent, eatTrail,
      isLabelStart, insertMatch, lookupSection, setSection, jsTrimStr, jsTrimList,
      jsWhitespace, isLineTerm, isLabelPunct, List.dropWhile]
  refine ⟨h, ?_⟩
  rw [h]
  decide

/-- Witness for the amended C8 at a concrete input with a repeated label and
non-empty contents: order `["A", "B"]` and the repeated label's contents are
joined with a blank line. -/
theorem extractSections_order_spec_witness :
    (extractSections (some "**A**: x\n**B**: y\n**A**: z")).1 = ["A", "B"] ∧
    lookupSection (extractSections (some "**A**: x\n**B**: y\n**A**: z")).2 "A" =
      some "x\n\nz" := by
  have heq : findMatches ("**A**: x\n**B**: y\n**A**: z").data =
      [("A".data, "x\n".data), ("B".data, "y\n".data), ("A".data, "z".data)] := by
    simp [findMatches, scanLabel, scanContent, eatTrail, isLabelStart,
      jsWhitespace, isLineTerm, isLabelPunct, List.dropWhile]
  have hms : findMatches ("**A**: x\n**B**: y\n**A**: z").data ≠ [] := by
    rw [heq]
    simp
  have hne : ∀ m ∈ findMatches ("**A**: x\n**B**: y\n**A**: z").data,
      jsTrimStr ⟨m.2⟩ ≠ "" := by
    rw [heq]
    decide
  have h := extractSections_order_spec "**A**: x\n**B**: y\n**A**: z" hms hne
  constructor
  · rw [h.1, heq]
    decide
  · have h3 := h.2.2 "A"
    rw [heq] at h3
    rw [h3]
    decide

/-- Order of the keys produced by the fallback `forEach` from index `i ≥ 1`
onwards: `"Section (i+1)"`, `"Section (i+2)"`, … . -/
theorem forEachBlocks_order_from_one (blocks : List String) :
    ∀ (i : Nat) (st : List String × List (String × String)), 1 ≤ i →
      (forEachBlocks i blocks st).1 =
        st.1 ++ (List.range blocks.length).map
          (fun j => "Section " ++ toString (i + j + 1)) := by
  induction blocks with
  | nil =>
    intro i st hi
    simp [forEachBlocks]
  | cons b rest ih =>
    intro i st hi
    rw [forEachBlocks]
    rw [if_neg (show ¬ i = 0 by omega)]
    rw [ih (i + 1) _ (by omega)]
    dsimp only
    simp only [List.length_cons]
    rw [List.range_succ_eq_map, List.map_cons, List.map_map]
    rw [List.append_assoc]
    congr 1
    rw [show i + 0 + 1 = i + 1 from by omega]
    rw [List.singleton_append]
    congr 1
    apply List.map_congr_left
    intro j _
    simp only [Function.comp_apply]
    rw [show i + 1 + j + 1 = i + (j + 1) + 1 from by omega]

/-- Claim C9: `extractSections` is total (it is a Lean function) and returns
the empty result for `null` and for the empty string; for a non-empty input
in which the scan finds no labelled section it falls back to blank-line
splitting — one block becomes a single "Recommendations" section, several
blocks become "Overview", "Section 2", "Section 3", … . -/
theorem extractSections_total_and_fallback :
    extractSections none = ([], []) ∧
    extractSections (some "") = ([], []) ∧
    (∀ s : String, s ≠ "" → findMatches s.data = [] →
      ((blocksOf s).length = 1 →
        extractSections (some s) =
          (["Recommendations"], [("Recommendations", (blocksOf s).headD "")])) ∧
      (2 ≤ (blocksOf s).length →
        (extractSections (some s)).1 =
          "Overview" :: (List.range ((blocksOf s).length - 1)).map
            (fun i => "Section " ++ toString (i + 2)))) := by
  refine ⟨rfl, rfl, ?_⟩
  intro s hs hnone
  have hext : extractSections (some s) =
      (if (blocksOf s).length = 1 then
        (["Recommendations"], [("Recommendations", (blocksOf s).headD "")])
      else forEachBlocks 0 (blocksOf s) ([], [])) := by
    unfold extractSections
    dsimp only
    rw [if_neg hs, hnone]
    rfl
  constructor
  · intro h1
    rw [hext, if_pos h1]
  · intro h2
    have h1 : ¬ (blocksOf s).length = 1 := by omega
    rw [hext, if_neg h1]
    cases hb : blocksOf s with
    | nil => rw [hb] at h2; simp at h2
    | cons b bs =>
      rw [forEachBlocks]
      rw [if_pos rfl]
      rw [forEachBlocks_order_from_one bs 1 _ (by omega)]
      simp only [List.length_cons, Nat.add_sub_cancel, List.nil_append,
        List.singleton_append]
      congr 1
      apply List.map_congr_left
      intro j _
      rw [show 1 + j + 1 = j + 2 from by omega]

/-- Witness for C9 at concrete inputs: an unlabeled one-block text becomes a
single "Recommendations" section; a two-block text becomes "Overview" and
"Section 2". -/
theorem extractSections_total_and_fallback_witness :
    extractSections (some "Just some advice.") =
      (["Recommendations"], [("Recommendations", "Just some advice.")]) ∧
    (extractSections (some "first\n\nsecond")).1 = ["Overview", "Section 2"] := by
  constructor
  · have hnone : findMatches ("Just some advice.").data = [] := by
      simp [findMatches, scanLabel, isLabelStart, isLineTerm]
    have hb : blocksOf "Just some advice." = ["Just some advice."] := by
      simp [blocksOf, splitBlocks, jsTrimStr, jsTrimList, jsWhitespace,
        List.dropWhile]
    have h := (extractSections_total_and_fallback.2.2 "Just some advice."
      (by decide) hnone).1
    rw [hb] at h
    exact h rfl
  · have hnone : findMatches ("first\n\nsecond").data = [] := by
      simp [findMatches, scanLabel, isLabelStart, isLineTerm]
    have hb : blocksOf "first\n\nsecond" = ["first", "second"] := by
      simp [blocksOf, splitBlocks, jsTrimStr, jsTrimList, jsWhitespace,
        List.dropWhile]
    have h := (extractSections_total_and_fallback.2.2 "first\n\nsecond"
      (by decide) hnone).2
    rw [hb] at h
    rw [h (by decide)]
    decide

/-! ### Claim C10: `sanitizeSuggestion` and idempotence -/

/-- Rebuilding a string from its characters is the identity. -/
theorem string_mk_data (v : String) : (⟨v.data⟩ : String) = v := by
  cases v
  rfl

/-- Counterexample to C10 as stated: on `"a\n \n \nb"` the first sanitize
pass trims the whitespace-only lines to empty ones *after* the blank-line
collapse has run, leaving three consecutive newlines; the second pass then
collapses them, so the double application changes the text. -/
theorem sanitizeSuggestion_not_idempotent :
    sanitizeSuggestion (sanitizeSuggestion (some "a\n \n \nb")) ≠
      sanitizeSuggestion (some "a\n \n \nb") := by
  have h1 : sanitizeChars ("a\n \n \nb").data = ("a\n\n\nb").data := by
    simp [sanitizeChars, crlfToLf, starJoin, collapseNewlines, trimEachLine,
      splitLines, stripZeroWidth, jsTrimList, jsWhitespace, List.dropWhile,
      List.takeWhile, joinNl]
  have h2 : sanitizeChars ("a\n\n\nb").data = ("a\n\nb").data := by
    simp [sanitizeChars, crlfToLf, starJoin, collapseNewlines, trimEachLine,
      splitLines, stripZeroWidth, jsTrimList, jsWhitespace, List.dropWhile,
      List.takeWhile, joinNl]
  intro hc
  simp only [sanitizeSuggestion] at hc
  rw [h1, string_mk_data, h2, string_mk_data] at hc
  have heq : ("a\n\nb" : String) = "a\n\n\nb" := Option.some.inj hc
  exact absurd heq (by decide)

/-! ### Strengthened idempotence analysis for `sanitizeSuggestion` -/

/-- Does the character list contain the two-character substring `"\r\n"`? -/
def hasCRLF : List Char → Bool
  | c1 :: c2 :: rest => (c1 == '\r' && c2 == '\n') || hasCRLF (c2 :: rest)
  | _ => false

/-- Does the character list contain the substring `"\n\n\n"`? -/
def hasTripleNl : List Char → Bool
  | c1 :: c2 :: c3 :: rest =>
    (c1 == '\n' && c2 == '\n' && c3 == '\n') || hasTripleNl (c2 :: c3 :: rest)
  | _ => false

theorem hasCRLF_tail (c : Char) (l : List Char) (h : hasCRLF (c :: l) = false) :
    hasCRLF l = false := by
  cases l with
  | nil => rfl
  | cons c2 r =>
    rw [hasCRLF] at h
    exact (Bool.or_eq_false_iff.mp h).2

theorem hasTripleNl_tail (c : Char) (l : List Char)
    (h : hasTripleNl (c :: l) = false) : hasTripleNl l = false := by
  cases l with
  | nil => rfl
  | cons c2 r =>
    cases r with
    | nil => rfl
    | cons c3 r2 =>
      rw [hasTripleNl] at h
      exact (Bool.or_eq_false_iff.mp h).2

theorem hasCRLF_append_right (a m : List Char) (h : hasCRLF (a ++ m) = false) :
    hasCRLF m = false := by
  induction a with
  | nil => exact h
  | cons c a' ih => exact ih (hasCRLF_tail c _ h)

theorem hasTripleNl_append_right (a m : List Char)
    (h : hasTripleNl (a ++ m) = false) : hasTripleNl m = false := by
  induction a with
  | nil => exact h
  | cons c a' ih => exact ih (hasTripleNl_tail c _ h)

theorem hasCRLF_append_left (m b : List Char) (h : hasCRLF (m ++ b) = false) :
    hasCRLF m = false := by
  induction m with
  | nil => rfl
  | cons c m' ih =>
    cases m' with
    | nil => rfl
    | cons c2 m2 =>
      have hstep : ((c == '\r') && (c2 == '\n') || hasCRLF (c2 :: (m2 ++ b))) = false := by
        rw [← hasCRLF]
        exact h
      rcases Bool.or_eq_false_iff.mp hstep with ⟨h1, h2⟩
      rw [hasCRLF, h1, Bool.false_or]
      exact ih h2

theorem hasTripleNl_append_left (m b : List Char)
    (h : hasTripleNl (m ++ b) = false) : hasTripleNl m = false := by
  induction m with
  | nil => rfl
  | cons c m' ih =>
    cases m' with
    | nil => rfl
    | cons c2 m2 =>
      cases m2 with
      | nil => rfl
      | cons c3 m3 =>
        rw [hasTripleNl]
        simp only [List.cons_append] at h
        rw [hasTripleNl] at h
        rcases Bool.or_eq_false_iff.mp h with ⟨h1, h2⟩
        rw [h1, Bool.false_or]
        exact ih h2

/-- The right-trim half of `jsTrimList`. -/
def rtrimWs (cs : List Char) : List Char :=
  (cs.reverse.dropWhile jsWhitespace).reverse

theorem jsTrimList_eq_rtrim (cs : List Char) :
    jsTrimList cs = rtrimWs (cs.dropWhile jsWhitespace) := rfl

theorem dropWhile_head_false (p : Char → Bool) (l : List Char) (c : Char)
    (r : List Char) (h : l.dropWhile p = c :: r) : p c = false := by
  induction l with
  | nil => cases h
  | cons c0 l' ih =>
    rw [List.dropWhile] at h
    cases hp : p c0 with
    | true => rw [hp] at h; exact ih h
    | false =>
      rw [hp] at h
      cases h
      exact hp

theorem dropWhile_cons_false (p : Char → Bool) (c : Char) (r : List Char)
    (h : p c = false) : (c :: r).dropWhile p = c :: r := by
  rw [List.dropWhile, h]

theorem jsTrimList_decomp (l : List Char) :
    ∃ pre suf, l = pre ++ jsTrimList l ++ suf := by
  refine ⟨l.takeWhile jsWhitespace,
    ((l.dropWhile jsWhitespace).reverse.takeWhile jsWhitespace).reverse, ?_⟩
  have h1 : l = l.takeWhile jsWhitespace ++ l.dropWhile jsWhitespace :=
    (List.takeWhile_append_dropWhile _ _).symm
  have h2 : (l.dropWhile jsWhitespace).reverse =
      (l.dropWhile jsWhitespace).reverse.takeWhile jsWhitespace ++
        (l.dropWhile jsWhitespace).reverse.dropWhile jsWhitespace :=
    (List.takeWhile_append_dropWhile _ _).symm
  have h3 : l.dropWhile jsWhitespace =
      jsTrimList l ++ ((l.dropWhile jsWhitespace).reverse.takeWhile jsWhitespace).reverse := by
    have := congrArg List.reverse h2
    rw [List.reverse_reverse, List.reverse_append] at this
    exact this
  calc l = l.takeWhile jsWhitespace ++ l.dropWhile jsWhitespace := h1
  _ = l.takeWhile jsWhitespace ++ (jsTrimList l ++
      ((l.dropWhile jsWhitespace).reverse.takeWhile jsWhitespace).reverse) := by rw [← h3]
  _ = l.takeWhile jsWhitespace ++ jsTrimList l ++
      ((l.dropWhile jsWhitespace).reverse.takeWhile jsWhitespace).reverse := by
    rw [List.append_assoc]

theorem hasCRLF_jsTrimList (l : List Char) (h : hasCRLF l = false) :
    hasCRLF (jsTrimList l) = false := by
  obtain ⟨pre, suf, hd⟩ := jsTrimList_decomp l
  rw [hd, List.append_assoc] at h
  exact hasCRLF_append_left _ _ (hasCRLF_append_right _ _ h)

theorem hasTripleNl_jsTrimList (l : List Char) (h : hasTripleNl l = false) :
    hasTripleNl (jsTrimList l) = false := by
  obtain ⟨pre, suf, hd⟩ := jsTrimList_decomp l
  rw [hd, List.append_assoc] at h
  exact hasTripleNl_append_left _ _ (hasTripleNl_append_right _ _ h)

theorem crlfToLf_fix (cs : List Char) (h : hasCRLF cs = false) :
    crlfToLf cs = cs := by
  induction cs using crlfToLf.induct with
  | case1 rest =>
    rw [hasCRLF] at h
    simp at h
  | case2 c rest hne ih =>
    rw [crlfToLf]
    · rw [ih (hasCRLF_tail c rest h)]
    · exact hne
  | case3 => rfl

theorem starJoin_fix (cs : List Char) (h : '*' ∉ cs) : starJoin cs = cs := by
  induction cs using starJoin.induct with
  | case1 rest heq rest2 ih => simp at h
  | case2 rest heq => simp at h
  | case3 c rest hne ih =>
    simp only [List.mem_cons, not_or] at h
    rw [starJoin]
    · rw [ih h.2]
    · exact fun a => h.1 a.symm
  | case4 => rw [starJoin]

theorem stripZeroWidth_fix (cs : List Char) (h : '​' ∉ cs) :
    stripZeroWidth cs = cs := by
  rw [stripZeroWidth, List.filter_eq_self]
  intro c hc
  simp only [Bool.not_eq_eq_eq_not, Bool.not_true, beq_eq_false_iff_ne, ne_eq]
  intro hval
  apply h
  have hc2 : c = '​' := Char.ext (UInt32.ext (by simpa using hval))
  exact hc2 ▸ hc

theorem mem_of_mem_jsTrimList (l : List Char) (x : Char)
    (hx : x ∈ jsTrimList l) : x ∈ l := by
  obtain ⟨pre, suf, hd⟩ := jsTrimList_decomp l
  rw [hd]
  simp only [List.mem_append]
  exact Or.inl (Or.inr hx)

theorem mem_of_mem_collapse (cs : List Char) (x : Char)
    (hx : x ∈ collapseNewlines cs) : x ∈ cs ∨ x = '\n' := by
  induction cs using collapseNewlines.induct with
  | case1 rest ih =>
    rw [collapseNewlines] at hx
    rw [List.mem_append] at hx
    rcases hx with hx | hx
    · by_cases hk : (rest.takeWhile (fun c => c == '\n')).length + 1 ≥ 3
      · rw [if_pos hk] at hx
        simp only [List.mem_cons, List.mem_singleton, List.not_mem_nil, or_false] at hx
        rcases hx with rfl | rfl
        · exact Or.inr rfl
        · exact Or.inr rfl
      · rw [if_neg hk] at hx
        simp only [List.mem_cons] at hx
        rcases hx with rfl | hx
        · exact Or.inr rfl
        · have := List.mem_takeWhile_imp hx
          simp only [beq_iff_eq] at this
          exact Or.inr this
    · rcases ih hx with h2 | h2
      · left
        right
        exact (List.dropWhile_sublist _).mem h2
      · exact Or.inr h2
  | case2 c rest hne ih =>
    rw [collapseNewlines] at hx
    · simp only [List.mem_cons] at hx
      rcases hx with rfl | hx
      · exact Or.inl (List.mem_cons_self _ _)
      · rcases ih hx with h2 | h2
        · exact Or.inl (List.mem_cons_of_mem _ h2)
        · exact Or.inr h2
    · exact fun a => hne a
  | case3 =>
    rw [collapseNewlines] at hx
    cases hx

theorem splitLines_ne_nil (cs : List Char) : splitLines cs ≠ [] := by
  induction cs with
  | nil => simp [splitLines]
  | cons c rest ih =>
    by_cases hc : c = '\n'
    · subst hc
      simp [splitLines]
    · rw [splitLines]
      · cases hSL : splitLines rest with
        | nil => simp
        | cons h t => simp
      · exact fun a => hc a

theorem splitLines_cons_of_ne (c : Char) (X : List Char) (hc : ¬ c = '\n') :
    ∃ h t, splitLines X = h :: t ∧ splitLines (c :: X) = (c :: h) :: t := by
  cases hSL : splitLines X with
  | nil => exact absurd hSL (splitLines_ne_nil X)
  | cons h t =>
    refine ⟨h, t, rfl, ?_⟩
    rw [splitLines]
    · rw [hSL]
    · exact fun a => hc a

theorem splitLines_no_nl (cs : List Char) : ∀ l ∈ splitLines cs, '\n' ∉ l := by
  induction cs with
  | nil =>
    intro l hl
    simp only [splitLines, List.mem_singleton] at hl
    subst hl
    simp
  | cons c rest ih =>
    by_cases hc : c = '\n'
    · subst hc
      rw [show splitLines ('\n' :: rest) = [] :: splitLines rest from rfl]
      intro l hl
      rcases List.mem_cons.mp hl with rfl | hl
      · simp
      · exact ih l hl
    · obtain ⟨h, t, hSL, hSL2⟩ := splitLines_cons_of_ne c rest hc
      rw [hSL2]
      intro l hl
      rcases List.mem_cons.mp hl with rfl | hl
      · simp only [List.mem_cons, not_or]
        exact ⟨fun a => hc a.symm, ih h (hSL ▸ List.mem_cons_self _ _)⟩
      · exact ih l (hSL ▸ List.mem_cons_of_mem _ hl)

theorem mem_of_mem_splitLines (cs : List Char) :
    ∀ l ∈ splitLines cs, ∀ x ∈ l, x ∈ cs := by
  induction cs with
  | nil =>
    intro l hl x hx
    simp only [splitLines, List.mem_singleton] at hl
    subst hl
    cases hx
  | cons c rest ih =>
    by_cases hc : c = '\n'
    · subst hc
      rw [show splitLines ('\n' :: rest) = [] :: splitLines rest from rfl]
      intro l hl x hx
      rcases List.mem_cons.mp hl with rfl | hl
      · cases hx
      · exact List.mem_cons_of_mem _ (ih l hl x hx)
    · obtain ⟨h, t, hSL, hSL2⟩ := splitLines_cons_of_ne c rest hc
      rw [hSL2]
      intro l hl x hx
      rcases List.mem_cons.mp hl with rfl | hl
      · rcases List.mem_cons.mp hx with rfl | hx
        · exact List.mem_cons_self _ _
        · exact List.mem_cons_of_mem _ (ih h (hSL ▸ List.mem_cons_self _ _) x hx)
      · exact List.mem_cons_of_mem _ (ih l (hSL ▸ List.mem_cons_of_mem _ hl) x hx)

theorem joinNl_splitLines (cs : List Char) : joinNl (splitLines cs) = cs := by
  induction cs with
  | nil => rfl
  | cons c rest ih =>
    by_cases hc : c = '\n'
    · subst hc
      rw [show splitLines ('\n' :: rest) = [] :: splitLines rest from rfl]
      cases hSL : splitLines rest with
      | nil => exact absurd hSL (splitLines_ne_nil rest)
      | cons h t =>
        rw [show joinNl ([] :: h :: t) = [] ++ '\n' :: joinNl (h :: t) from rfl]
        rw [← hSL, ih]
        rfl
    · obtain ⟨h, t, hSL, hSL2⟩ := splitLines_cons_of_ne c rest hc
      rw [hSL2]
      cases t with
      | nil =>
        rw [show joinNl [c :: h] = c :: h from rfl]
        have := ih
        rw [hSL] at this
        rw [show joinNl [h] = h from rfl] at this
        rw [this]
      | cons t1 ts =>
        rw [show joinNl ((c :: h) :: t1 :: ts) = (c :: h) ++ '\n' :: joinNl (t1 :: ts) from rfl]
        have := ih
        rw [hSL] at this
        rw [show joinNl (h :: t1 :: ts) = h ++ '\n' :: joinNl (t1 :: ts) from rfl] at this
        rw [List.cons_append, this]

theorem splitLines_of_no_nl (p : List Char) (hp : '\n' ∉ p) :
    splitLines p = [p] := by
  induction p with
  | nil => rfl
  | cons c rest ih =>
    simp only [List.mem_cons, not_or] at hp
    obtain ⟨h, t, hSL, hSL2⟩ := splitLines_cons_of_ne c rest (fun a => hp.1 a.symm)
    rw [hSL2]
    rw [ih hp.2] at hSL
    cases hSL
    rfl

theorem splitLines_append_nl (p Y : List Char) (hp : '\n' ∉ p) :
    splitLines (p ++ '\n' :: Y) = p :: splitLines Y := by
  induction p with
  | nil =>
    rw [List.nil_append]
    rfl
  | cons c rest ih =>
    simp only [List.mem_cons, not_or] at hp
    obtain ⟨h, t, hSL, hSL2⟩ :=
      splitLines_cons_of_ne c (rest ++ '\n' :: Y) (fun a => hp.1 a.symm)
    rw [List.cons_append, hSL2]
    rw [ih hp.2] at hSL
    cases hSL
    rfl

theorem splitLines_joinNl (pieces : List (List Char)) (hne : pieces ≠ [])
    (hnl : ∀ p ∈ pieces, '\n' ∉ p) :
    splitLines (joinNl pieces) = pieces := by
  induction pieces with
  | nil => exact absurd rfl hne
  | cons p rest ih =>
    cases rest with
    | nil =>
      rw [show joinNl [p] = p from rfl]
      exact splitLines_of_no_nl p (hnl p (List.mem_cons_self _ _))
    | cons p2 ps =>
      rw [show joinNl (p :: p2 :: ps) = p ++ '\n' :: joinNl (p2 :: ps) from rfl]
      rw [splitLines_append_nl _ _ (hnl p (List.mem_cons_self _ _))]
      rw [ih (by simp) (fun q hq => hnl q (List.mem_cons_of_mem _ hq))]

/-- Every line of the character list is fixed by `trim`. -/
def linesOK (cs : List Char) : Prop :=
  ∀ l ∈ splitLines cs, jsTrimList l = l

theorem map_self_of_eq_map {α : Type} (f : α → α) :
    ∀ (L : List α), L = L.map f → ∀ x ∈ L, f x = x := by
  intro L
  induction L with
  | nil => intro _ x hx; cases hx
  | cons a L' ih =>
    intro h x hx
    rw [List.map_cons] at h
    have h1 : a = f a := (List.cons.injEq _ _ _ _ ▸ h).1
    have h2 : L' = L'.map f := (List.cons.injEq _ _ _ _ ▸ h).2
    rcases List.mem_cons.mp hx with rfl | hx
    · exact h1.symm
    · exact ih h2 x hx

theorem trimEachLine_fix_iff (cs : List Char) :
    trimEachLine cs = cs ↔ linesOK cs := by
  constructor
  · intro h l hl
    have hpieces : ∀ p ∈ (splitLines cs).map jsTrimList, '\n' ∉ p := by
      intro p hp
      obtain ⟨l0, hl0, hl0e⟩ := List.mem_map.mp hp
      intro hnl
      exact splitLines_no_nl cs l0 hl0
        (mem_of_mem_jsTrimList l0 '\n' (hl0e ▸ hnl))
    have hpne : (splitLines cs).map jsTrimList ≠ [] := by
      simp [splitLines_ne_nil cs]
    have hsl : splitLines cs = (splitLines cs).map jsTrimList := by
      conv_lhs => rw [← h]
      rw [trimEachLine, splitLines_joinNl _ hpne hpieces]
    exact map_self_of_eq_map jsTrimList (splitLines cs) hsl l hl
  · intro h
    rw [trimEachLine]
    have : (splitLines cs).map jsTrimList = splitLines cs :=
      List.map_congr_left h ▸ List.map_id (splitLines cs)
    rw [this, joinNl_splitLines]

theorem rtrim_length_le (u : List Char) : (rtrimWs u).length ≤ u.length := by
  rw [rtrimWs, List.length_reverse]
  have := dropWhile_length_le jsWhitespace u.reverse
  simpa using this

theorem getLast?_append_right (A u : List Char) (hu : u ≠ []) :
    (A ++ u).getLast? = u.getLast? := by
  rw [← List.head?_reverse, ← List.head?_reverse, List.reverse_append]
  exact List.head?_append_of_ne_nil _ (by simpa using hu)

theorem trim_fix_head (l : List Char) (h : jsTrimList l = l) :
    ∀ c, l.head? = some c → jsWhitespace c = false := by
  intro c hc
  cases l with
  | nil => cases hc
  | cons c0 r =>
    have hc0 : c0 = c := by simpa using hc
    subst hc0
    cases hw : jsWhitespace c0 with
    | false => rfl
    | true =>
      exfalso
      have hlen := congrArg List.length h
      rw [jsTrimList_eq_rtrim] at hlen
      rw [List.dropWhile] at hlen
      rw [hw] at hlen
      have h1 := rtrim_length_le (r.dropWhile jsWhitespace)
      have h2 := dropWhile_length_le jsWhitespace r
      simp only [List.length_cons] at hlen
      omega

theorem trim_fix_last (l : List Char) (h : jsTrimList l = l) :
    ∀ c, l.getLast? = some c → jsWhitespace c = false := by
  intro c hc
  cases hw : jsWhitespace c with
  | false => rfl
  | true =>
    exfalso
    have hlnil : l ≠ [] := by
      intro he
      rw [he] at hc
      cases hc
    cases hu : l.dropWhile jsWhitespace with
    | nil =>
      have : jsTrimList l = [] := by
        rw [jsTrimList, hu]
        rfl
      rw [h] at this
      exact hlnil this
    | cons u0 ur =>
      have hunil : l.dropWhile jsWhitespace ≠ [] := by
        rw [hu]
        simp
      have hlu : l.getLast? = (l.dropWhile jsWhitespace).getLast? := by
        conv_lhs => rw [← List.takeWhile_append_dropWhile jsWhitespace l]
        exact getLast?_append_right _ _ hunil
      have hurev : (l.dropWhile jsWhitespace).reverse.head? = some c := by
        rw [List.head?_reverse, ← hlu, hc]
      obtain ⟨w, hw2⟩ : ∃ w, (l.dropWhile jsWhitespace).reverse = c :: w := by
        cases hr : (l.dropWhile jsWhitespace).reverse with
        | nil => rw [hr] at hurev; cases hurev
        | cons a w =>
          rw [hr] at hurev
          have ha : a = c := by simpa using hurev
          exact ⟨w, by rw [ha]⟩
      have hlen := congrArg List.length h
      rw [jsTrimList_eq_rtrim, rtrimWs, hw2] at hlen
      rw [List.dropWhile] at hlen
      rw [hw] at hlen
      have h1 := dropWhile_length_le jsWhitespace w
      have h2 := dropWhile_length_le jsWhitespace l
      have h3 : (l.dropWhile jsWhitespace).length = w.length + 1 := by
        rw [← List.length_reverse, hw2]
        rfl
      simp only [List.length_reverse] at hlen
      omega

theorem trim_fix_of_ends (l : List Char)
    (hh : ∀ c, l.head? = some c → jsWhitespace c = false)
    (hl : ∀ c, l.getLast? = some c → jsWhitespace c = false) :
    jsTrimList l = l := by
  have h1 : l.dropWhile jsWhitespace = l := by
    cases l with
    | nil => rfl
    | cons c r => exact dropWhile_cons_false _ c r (hh c rfl)
  have h2 : l.reverse.dropWhile jsWhitespace = l.reverse := by
    cases hr : l.reverse with
    | nil => rfl
    | cons c w =>
      have hcl : l.getLast? = some c := by
        rw [← List.head?_reverse, hr]
        rfl
      exact dropWhile_cons_false _ c w (hl c hcl)
  rw [jsTrimList, h1, h2, List.reverse_reverse]

theorem rtrim_decomp (u : List Char) :
    u = rtrimWs u ++ (u.reverse.takeWhile jsWhitespace).reverse := by
  calc u = u.reverse.reverse := (List.reverse_reverse u).symm
  _ = (u.reverse.takeWhile jsWhitespace ++ u.reverse.dropWhile jsWhitespace).reverse := by
      rw [List.takeWhile_append_dropWhile]
  _ = (u.reverse.dropWhile jsWhitespace).reverse ++ (u.reverse.takeWhile jsWhitespace).reverse :=
      List.reverse_append _ _
  _ = rtrimWs u ++ (u.reverse.takeWhile jsWhitespace).reverse := rfl

theorem rtrim_head (u : List Char) (c : Char) (r : List Char)
    (h : rtrimWs u = c :: r) : u.head? = some c := by
  have hd := rtrim_decomp u
  rw [h] at hd
  rw [hd]
  rfl

theorem jsTrim_idem (l : List Char) :
    jsTrimList (jsTrimList l) = jsTrimList l := by
  apply trim_fix_of_ends
  · intro c hc
    cases hj : jsTrimList l with
    | nil => rw [hj] at hc; cases hc
    | cons c0 r =>
      rw [hj] at hc
      have hc0 : c0 = c := by simpa using hc
      subst hc0
      rw [jsTrimList_eq_rtrim] at hj
      have hhd := rtrim_head _ _ _ hj
      cases hd : l.dropWhile jsWhitespace with
      | nil => rw [hd] at hhd; cases hhd
      | cons a w =>
        rw [hd] at hhd
        have ha : a = c0 := by simpa using hhd
        rw [ha] at hd
        exact dropWhile_head_false jsWhitespace l c0 w hd
  · intro c hc
    rw [← List.head?_reverse] at hc
    have hrev : (jsTrimList l).reverse =
        (l.dropWhile jsWhitespace).reverse.dropWhile jsWhitespace := by
      rw [jsTrimList, List.reverse_reverse]
    rw [hrev] at hc
    cases hd : (l.dropWhile jsWhitespace).reverse.dropWhile jsWhitespace with
    | nil => rw [hd] at hc; cases hc
    | cons a w =>
      rw [hd] at hc
      have ha : a = c := by simpa using hc
      rw [ha] at hd
      exact dropWhile_head_false jsWhitespace _ c w hd

theorem no_nl_no_crlf (p : List Char) (hp : '\n' ∉ p) : hasCRLF p = false := by
  induction p with
  | nil => rfl
  | cons c p' ih =>
    cases p' with
    | nil => rfl
    | cons c2 rest =>
      simp only [List.mem_cons, not_or] at hp
      rw [hasCRLF]
      have h2 : (c2 == '\n') = false := by
        simp only [beq_eq_false_iff_ne, ne_eq]
        exact fun a => hp.2.1 a.symm
      rw [h2, Bool.and_false, Bool.false_or]
      exact ih (by simp only [List.mem_cons, not_or]; exact ⟨hp.2.1, hp.2.2⟩)

theorem hasCRLF_append_of (p q : List Char) (hp : hasCRLF p = false)
    (hq : hasCRLF q = false)
    (hcross : ∀ c d, p.getLast? = some c → q.head? = some d →
      (c == '\r' && d == '\n') = false) :
    hasCRLF (p ++ q) = false := by
  induction p with
  | nil => exact hq
  | cons c p' ih =>
    cases p' with
    | nil =>
      cases q with
      | nil => rfl
      | cons d q' =>
        rw [List.cons_append, List.nil_append, hasCRLF]
        rw [hcross c d rfl rfl, Bool.false_or]
        exact hq
    | cons c2 p2 =>
      rw [hasCRLF] at hp
      rcases Bool.or_eq_false_iff.mp hp with ⟨hp1, hp2⟩
      rw [List.cons_append, List.cons_append, hasCRLF]
      rw [hp1, Bool.false_or, ← List.cons_append]
      exact ih hp2
        (fun a d ha hd => hcross a d (by rw [List.getLast?_cons_cons]; exact ha) hd)

theorem hasCRLF_joinNl (pieces : List (List Char))
    (hnl : ∀ p ∈ pieces, '\n' ∉ p)
    (htr : ∀ p ∈ pieces, jsTrimList p = p) :
    hasCRLF (joinNl pieces) = false := by
  induction pieces with
  | nil => rfl
  | cons p rest ih =>
    cases rest with
    | nil =>
      rw [show joinNl [p] = p from rfl]
      exact no_nl_no_crlf p (hnl p (List.mem_cons_self _ _))
    | cons p2 ps =>
      rw [show joinNl (p :: p2 :: ps) = p ++ '\n' :: joinNl (p2 :: ps) from rfl]
      apply hasCRLF_append_of
      · exact no_nl_no_crlf p (hnl p (List.mem_cons_self _ _))
      · have hj := ih (fun q hq => hnl q (List.mem_cons_of_mem _ hq))
          (fun q hq => htr q (List.mem_cons_of_mem _ hq))
        cases hJ : joinNl (p2 :: ps) with
        | nil => rfl
        | cons j js =>
          rw [hasCRLF]
          rw [hJ] at hj
          rw [show ('\n' == '\r') = false from by decide, Bool.false_and, Bool.false_or]
          exact hj
      · intro c d hcl hdh
        have hws := trim_fix_last p (htr p (List.mem_cons_self _ _)) c hcl
        have hcr : (c == '\r') = false := by
          simp only [beq_eq_false_iff_ne, ne_eq]
          intro he
          rw [he] at hws
          exact absurd hws (by decide)
        rw [hcr, Bool.false_and]

theorem hasCRLF_of_linesOK (cs : List Char) (h : linesOK cs) :
    hasCRLF cs = false := by
  have h2 := hasCRLF_joinNl (splitLines cs) (splitLines_no_nl cs) h
  rw [joinNl_splitLines] at h2
  exact h2

theorem takeWhile_nl_replicate (u : List Char) :
    u.takeWhile (fun c => c == '\n') =
      List.replicate (u.takeWhile (fun c => c == '\n')).length '\n' := by
  apply List.eq_replicate_of_mem
  intro b hb
  have h2 := List.mem_takeWhile_imp hb
  simpa using h2

theorem splitLines_nlpad (k : Nat) (Y : List Char) :
    splitLines (List.replicate k '\n' ++ Y) =
      List.replicate k [] ++ splitLines Y := by
  induction k with
  | zero => rfl
  | succ n ih =>
    rw [List.replicate_succ, List.cons_append,
      show splitLines ('\n' :: (List.replicate n '\n' ++ Y)) =
        [] :: splitLines (List.replicate n '\n' ++ Y) from rfl, ih]
    rfl

theorem mem_of_lines_struct {A B : List (List Char)} (hA : A ≠ []) (hB : B ≠ [])
    (hh : A.head? = B.head?) (ht : ∀ l ∈ A.tail, l ∈ B.tail ∨ l = []) :
    ∀ l ∈ A, l ∈ B ∨ l = [] := by
  cases A with
  | nil => intro l hl; cases hl
  | cons a as =>
    cases B with
    | nil => exact absurd rfl hB
    | cons b bs =>
      intro l hl
      rcases List.mem_cons.mp hl with rfl | hl
      · left
        have hab : l = b := by simpa using hh
        rw [hab]
        exact List.mem_cons_self _ _
      · rcases ht l hl with h | h
        · exact Or.inl (List.mem_cons_of_mem _ h)
        · exact Or.inr h

theorem collapse_lines (cs : List Char) :
    (splitLines (collapseNewlines cs)).head? = (splitLines cs).head? ∧
      ∀ l ∈ (splitLines (collapseNewlines cs)).tail,
        l ∈ (splitLines cs).tail ∨ l = [] := by
  induction cs using collapseNewlines.induct with
  | case1 rest ih =>
    obtain ⟨ihh, iht⟩ := ih
    obtain ⟨k, hT⟩ : ∃ k, rest.takeWhile (fun c => c == '\n') = List.replicate k '\n' :=
      ⟨_, takeWhile_nl_replicate rest⟩
    have hD : rest = List.replicate k '\n' ++ rest.dropWhile (fun c => c == '\n') := by
      conv_lhs => rw [← List.takeWhile_append_dropWhile (fun c => c == '\n') rest]
      rw [hT]
    have hrestL : splitLines rest =
        List.replicate k [] ++ splitLines (rest.dropWhile (fun c => c == '\n')) := by
      conv_lhs => rw [hD]
      exact splitLines_nlpad _ _
    have hmemZ := mem_of_lines_struct (splitLines_ne_nil _) (splitLines_ne_nil _) ihh iht
    rw [collapseNewlines]
    by_cases hk : (rest.takeWhile (fun c => c == '\n')).length + 1 ≥ 3
    · rw [if_pos hk]
      refine ⟨rfl, ?_⟩
      intro l hl
      have hl2 : l ∈ [] :: splitLines (collapseNewlines
          (rest.dropWhile (fun c => c == '\n'))) := hl
      rcases List.mem_cons.mp hl2 with rfl | hl3
      · exact Or.inr rfl
      · rcases hmemZ l hl3 with h | h
        · left
          show l ∈ splitLines rest
          rw [hrestL]
          exact List.mem_append_right _ h
        · exact Or.inr h
    · rw [if_neg hk]
      rw [hT]
      have hpad : ('\n' :: List.replicate k '\n') ++
          collapseNewlines (rest.dropWhile (fun c => c == '\n')) =
          List.replicate (k + 1) '\n' ++
            collapseNewlines (rest.dropWhile (fun c => c == '\n')) := rfl
      rw [hpad, splitLines_nlpad]
      refine ⟨rfl, ?_⟩
      intro l hl
      have hl2 : l ∈ List.replicate k [] ++
          splitLines (collapseNewlines (rest.dropWhile (fun c => c == '\n'))) := hl
      rcases List.mem_append.mp hl2 with h | h
      · exact Or.inr (List.eq_of_mem_replicate h)
      · rcases hmemZ l h with h2 | h2
        · left
          show l ∈ splitLines rest
          rw [hrestL]
          exact List.mem_append_right _ h2
        · exact Or.inr h2
  | case2 c rest hne ih =>
    obtain ⟨ihh, iht⟩ := ih
    rw [collapseNewlines]
    · obtain ⟨h1, t1, hS1, hS1e⟩ :=
        splitLines_cons_of_ne c (collapseNewlines rest) (fun a => hne a)
      obtain ⟨h2, t2, hS2, hS2e⟩ := splitLines_cons_of_ne c rest (fun a => hne a)
      rw [hS1e, hS2e]
      constructor
      · have hhe : h1 = h2 := by
          rw [hS1, hS2] at ihh
          simpa using ihh
        rw [hhe]
        rfl
      · intro l hl
        have hl1 : l ∈ t1 := hl
        have h3 := iht l (by rw [hS1]; exact hl1)
        rw [hS2] at h3
        exact h3
    · exact fun a => hne a
  | case3 =>
    rw [show collapseNewlines [] = [] from by rw [collapseNewlines]]
    exact ⟨rfl, fun l hl => by cases hl⟩

theorem linesOK_collapse (cs : List Char) (h : linesOK cs) :
    linesOK (collapseNewlines cs) := by
  obtain ⟨hh, ht⟩ := collapse_lines cs
  intro l hl
  rcases mem_of_lines_struct (splitLines_ne_nil _) (splitLines_ne_nil _) hh ht l hl
    with h2 | h2
  · exact h l h2
  · rw [h2]
    rfl

theorem hasTripleNl_cons_ne (c : Char) (W : List Char) (hc : ¬ c = '\n') :
    hasTripleNl (c :: W) = hasTripleNl W := by
  cases W with
  | nil => rfl
  | cons w1 W1 =>
    cases W1 with
    | nil => rfl
    | cons w2 W2 =>
      rw [hasTripleNl]
      have h1 : (c == '\n') = false := by
        simp only [beq_eq_false_iff_ne, ne_eq]
        exact hc
      simp only [h1, Bool.false_and, Bool.and_false, Bool.false_or]

theorem hasTripleNl_one_nl (Z : List Char) (hZ : hasTripleNl Z = false)
    (hh : ∀ c, Z.head? = some c → ¬ c = '\n') :
    hasTripleNl ('\n' :: Z) = false := by
  cases Z with
  | nil => rfl
  | cons z1 Z1 =>
    cases Z1 with
    | nil => rfl
    | cons z2 Z2 =>
      rw [hasTripleNl]
      have h1 : (z1 == '\n') = false := by
        simp only [beq_eq_false_iff_ne, ne_eq]
        exact hh z1 rfl
      simp only [h1, Bool.false_and, Bool.and_false, Bool.false_or]
      exact hZ

theorem hasTripleNl_two_nl (Z : List Char) (hZ : hasTripleNl Z = false)
    (hh : ∀ c, Z.head? = some c → ¬ c = '\n') :
    hasTripleNl ('\n' :: '\n' :: Z) = false := by
  cases Z with
  | nil => rfl
  | cons z1 Z1 =>
    rw [hasTripleNl]
    have h1 : (z1 == '\n') = false := by
      simp only [beq_eq_false_iff_ne, ne_eq]
      exact hh z1 rfl
    simp only [h1, Bool.false_and, Bool.and_false, Bool.false_or]
    exact hasTripleNl_one_nl (z1 :: Z1) hZ hh

theorem collapse_head_ne (u : List Char) (hu : ∀ c, u.head? = some c → ¬ c = '\n') :
    ∀ c, (collapseNewlines u).head? = some c → ¬ c = '\n' := by
  cases u with
  | nil =>
    rw [show collapseNewlines [] = [] from by rw [collapseNewlines]]
    intro c hc
    cases hc
  | cons a rest =>
    have ha : ¬ a = '\n' := hu a rfl
    rw [collapseNewlines]
    · intro c hc
      have hca : c = a := by
        have := hc
        simp only [List.head?_cons, Option.some.injEq] at this
        exact this.symm
      rw [hca]
      exact ha
    · exact fun h => ha h

theorem collapse_noTriple (cs : List Char) :
    hasTripleNl (collapseNewlines cs) = false := by
  induction cs using collapseNewlines.induct with
  | case1 rest ih =>
    rw [collapseNewlines]
    have hhd : ∀ c, (rest.dropWhile (fun c => c == '\n')).head? = some c →
        ¬ c = '\n' := by
      intro c hc
      cases hd : rest.dropWhile (fun c => c == '\n') with
      | nil => rw [hd] at hc; cases hc
      | cons a w =>
        rw [hd] at hc
        have hac : a = c := by simpa using hc
        have h2 := dropWhile_head_false (fun c => c == '\n') rest a w hd
        rw [hac] at h2
        simpa using h2
    have hZ := collapse_head_ne _ hhd
    by_cases hk : (rest.takeWhile (fun c => c == '\n')).length + 1 ≥ 3
    · rw [if_pos hk]
      exact hasTripleNl_two_nl _ ih hZ
    · rw [if_neg hk]
      cases hT : rest.takeWhile (fun c => c == '\n') with
      | nil =>
        exact hasTripleNl_one_nl _ ih hZ
      | cons x xs =>
        cases xs with
        | nil =>
          have hx : x = '\n' := by
            have h3 := List.mem_takeWhile_imp (l := rest)
              (p := fun c => c == '\n') (by rw [hT]; exact List.mem_cons_self _ _)
            simpa using h3
          rw [hx]
          exact hasTripleNl_two_nl _ ih hZ
        | cons y ys =>
          exfalso
          rw [hT] at hk
          simp only [List.length_cons] at hk
          omega
  | case2 c rest hne ih =>
    rw [collapseNewlines]
    · rw [hasTripleNl_cons_ne c _ (fun h => hne h)]
      exact ih
    · exact fun h => hne h
  | case3 =>
    rw [show collapseNewlines [] = [] from by rw [collapseNewlines]]
    rfl

theorem collapse_fix_of_noTriple (cs : List Char) (h : hasTripleNl cs = false) :
    collapseNewlines cs = cs := by
  induction cs using collapseNewlines.induct with
  | case1 rest ih =>
    rw [collapseNewlines]
    have hk : ¬ ((rest.takeWhile (fun c => c == '\n')).length + 1 ≥ 3) := by
      intro hge
      obtain ⟨k, hT⟩ : ∃ k, rest.takeWhile (fun c => c == '\n') =
          List.replicate k '\n' := ⟨_, takeWhile_nl_replicate rest⟩
      have hlen : (rest.takeWhile (fun c => c == '\n')).length = k := by
        rw [hT]
        simp
      have hk2 : 2 ≤ k := by omega
      obtain ⟨m, hm⟩ := Nat.exists_eq_add_of_le hk2
      have hD : rest = List.replicate k '\n' ++
          rest.dropWhile (fun c => c == '\n') := by
        conv_lhs => rw [← List.takeWhile_append_dropWhile (fun c => c == '\n') rest]
        rw [hT]
      rw [hm] at hD
      have hrep : List.replicate (2 + m) '\n' = '\n' :: '\n' :: List.replicate m '\n' := by
        rw [List.replicate_add]
        rfl
      rw [hrep] at hD
      have htrip : hasTripleNl ('\n' :: rest) = true := by
        rw [hD]
        show hasTripleNl ('\n' :: '\n' :: '\n' :: (List.replicate m '\n' ++
          rest.dropWhile (fun c => c == '\n'))) = true
        rw [hasTripleNl]
        simp
      rw [h] at htrip
      cases htrip
    rw [if_neg hk]
    have hTD : hasTripleNl (rest.dropWhile (fun c => c == '\n')) = false := by
      have h1 : hasTripleNl rest = false := hasTripleNl_tail _ _ h
      have h2 : rest = rest.takeWhile (fun c => c == '\n') ++
          rest.dropWhile (fun c => c == '\n') :=
        (List.takeWhile_append_dropWhile _ _).symm
      rw [h2] at h1
      exact hasTripleNl_append_right _ _ h1
    rw [ih hTD]
    rw [List.cons_append, List.takeWhile_append_dropWhile]
  | case2 c rest hne ih =>
    rw [collapseNewlines]
    · rw [ih (hasTripleNl_tail c rest h)]
    · exact fun a => hne a
  | case3 => rw [collapseNewlines]

theorem ltrim_eq_dropNl (u : List Char) (h : linesOK u) :
    u.dropWhile jsWhitespace = u.dropWhile (fun c => c == '\n') := by
  induction u with
  | nil => rfl
  | cons c u' ih =>
    by_cases hc : c = '\n'
    · subst hc
      rw [List.dropWhile, List.dropWhile]
      rw [show jsWhitespace '\n' = true from by decide]
      rw [show (('\n' == '\n') : Bool) = true from by decide]
      exact ih (fun l hl => h l (by
        rw [show splitLines ('\n' :: u') = [] :: splitLines u' from rfl]
        exact List.mem_cons_of_mem _ hl))
    · cases hw : jsWhitespace c with
      | true =>
        exfalso
        obtain ⟨hH, tT, hSL, hSL2⟩ := splitLines_cons_of_ne c u' hc
        have htf := h (c :: hH) (by rw [hSL2]; exact List.mem_cons_self _ _)
        have h2 := trim_fix_head _ htf c rfl
        rw [hw] at h2
        cases h2
      | false =>
        rw [List.dropWhile, List.dropWhile, hw]
        rw [show ((c == '\n') : Bool) = false from by
          simp only [beq_eq_false_iff_ne, ne_eq]
          exact hc]

theorem rtrim_fix_of_last (u : List Char)
    (hl : ∀ c, u.getLast? = some c → jsWhitespace c = false) : rtrimWs u = u := by
  cases hr : u.reverse with
  | nil =>
    have hu : u = [] := by simpa using congrArg List.reverse hr
    rw [hu]
    rfl
  | cons c w =>
    have hcl : u.getLast? = some c := by
      rw [← List.head?_reverse, hr]
      rfl
    rw [rtrimWs, hr, dropWhile_cons_false _ c w (hl c hcl), ← hr, List.reverse_reverse]

theorem rtrim_append_ws (X : List Char) (c : Char) (hc : jsWhitespace c = true) :
    rtrimWs (X ++ [c]) = rtrimWs X := by
  rw [rtrimWs, rtrimWs, List.reverse_append]
  rw [show (([c] : List Char).reverse ++ X.reverse) = c :: X.reverse from rfl]
  rw [List.dropWhile]
  rw [hc]

theorem joinNl_append_last (A : List (List Char)) (p : List Char) (hA : A ≠ []) :
    joinNl (A ++ [p]) = joinNl A ++ '\n' :: p := by
  induction A with
  | nil => exact absurd rfl hA
  | cons a A' ih =>
    cases A' with
    | nil => rfl
    | cons b B =>
      rw [show ((a :: b :: B) ++ [p]) = a :: ((b :: B) ++ [p]) from rfl]
      rw [show joinNl (a :: ((b :: B) ++ [p])) =
        a ++ '\n' :: joinNl ((b :: B) ++ [p]) from rfl]
      rw [ih (by simp)]
      rw [show joinNl (a :: b :: B) = a ++ '\n' :: joinNl (b :: B) from rfl]
      rw [List.append_assoc, List.cons_append]

theorem rtrim_joinNl (qs : List (List Char))
    (htr : ∀ p ∈ qs, jsTrimList p = p) :
    rtrimWs (joinNl qs.reverse) =
      joinNl ((qs.dropWhile (fun l => l.isEmpty)).reverse) := by
  induction qs with
  | nil => rfl
  | cons p qs' ih =>
    have htr' : ∀ x ∈ qs', jsTrimList x = x :=
      fun x hx => htr x (List.mem_cons_of_mem _ hx)
    have htp : jsTrimList p = p := htr p (List.mem_cons_self _ _)
    cases qs' with
    | nil =>
      cases hpe : p.isEmpty with
      | true =>
        have hp : p = [] := by
          cases p with
          | nil => rfl
          | cons a w => cases hpe
        subst hp
        rfl
      | false =>
        have hres : (([p] : List (List Char)).dropWhile (fun l => l.isEmpty)) = [p] := by
          rw [List.dropWhile, hpe]
        rw [hres]
        rw [show ([p] : List (List Char)).reverse = [p] from rfl]
        rw [show joinNl [p] = p from rfl]
        exact rtrim_fix_of_last p (trim_fix_last p htp)
    | cons q qs'' =>
      have hA : (q :: qs'').reverse ≠ [] := by simp
      rw [show ((p :: q :: qs'').reverse) = (q :: qs'').reverse ++ [p] from by
        rw [List.reverse_cons]]
      rw [joinNl_append_last _ p hA]
      cases hpe : p.isEmpty with
      | true =>
        have hp : p = [] := by
          cases p with
          | nil => rfl
          | cons a w => cases hpe
        subst hp
        rw [show (('\n' :: ([] : List Char))) = ['\n'] from rfl]
        rw [rtrim_append_ws _ '\n' (by decide)]
        rw [ih htr']
        rw [show ((([] : List Char) :: q :: qs'').dropWhile (fun l => l.isEmpty)) =
          ((q :: qs'').dropWhile (fun l => l.isEmpty)) from rfl]
      | false =>
        have hpne : p ≠ [] := by
          cases p with
          | nil => cases hpe
          | cons a w => simp
        have hlast : ∀ c, (joinNl ((q :: qs'').reverse) ++ '\n' :: p).getLast? = some c →
            jsWhitespace c = false := by
          intro c hc
          rw [show (joinNl ((q :: qs'').reverse) ++ '\n' :: p) =
            (joinNl ((q :: qs'').reverse) ++ ['\n']) ++ p from by
            rw [List.append_assoc, List.singleton_append]] at hc
          rw [getLast?_append_right _ p hpne] at hc
          exact trim_fix_last p htp c hc
        rw [rtrim_fix_of_last _ hlast]
        rw [show ((p :: q :: qs'').dropWhile (fun l => l.isEmpty)) =
          p :: q :: qs'' from by rw [List.dropWhile, hpe]]
        rw [show ((p :: q :: qs'').reverse) = (q :: qs'').reverse ++ [p] from by
          rw [List.reverse_cons]]
        rw [joinNl_append_last _ p hA]

theorem linesOK_jsTrimList (Y : List Char) (h : linesOK Y) :
    linesOK (jsTrimList Y) := by
  have h1 : jsTrimList Y = rtrimWs (Y.dropWhile (fun c => c == '\n')) := by
    rw [jsTrimList_eq_rtrim, ltrim_eq_dropNl Y h]
  obtain ⟨k, hT⟩ : ∃ k, Y.takeWhile (fun c => c == '\n') = List.replicate k '\n' :=
    ⟨_, takeWhile_nl_replicate Y⟩
  have hD : Y = List.replicate k '\n' ++ Y.dropWhile (fun c => c == '\n') := by
    conv_lhs => rw [← List.takeWhile_append_dropWhile (fun c => c == '\n') Y]
    rw [hT]
  have hYL : splitLines Y = List.replicate k [] ++
      splitLines (Y.dropWhile (fun c => c == '\n')) := by
    conv_lhs => rw [hD]
    exact splitLines_nlpad _ _
  have hV : linesOK (Y.dropWhile (fun c => c == '\n')) := by
    intro l hl
    apply h
    rw [hYL]
    exact List.mem_append_right _ hl
  have hpnl := splitLines_no_nl (Y.dropWhile (fun c => c == '\n'))
  have hVjoin : Y.dropWhile (fun c => c == '\n') =
      joinNl (splitLines (Y.dropWhile (fun c => c == '\n'))) :=
    (joinNl_splitLines _).symm
  have htrq : ∀ p ∈ (splitLines (Y.dropWhile (fun c => c == '\n'))).reverse,
      jsTrimList p = p := by
    intro p hp
    exact hV p (List.mem_reverse.mp hp)
  have hR := rtrim_joinNl (splitLines (Y.dropWhile (fun c => c == '\n'))).reverse htrq
  rw [List.reverse_reverse] at hR
  rw [← hVjoin] at hR
  rw [h1, hR]
  generalize hps0 : (((splitLines (Y.dropWhile (fun c => c == '\n'))).reverse.dropWhile
    (fun l => l.isEmpty)).reverse) = ps
  have hsub : ∀ p ∈ ps, p ∈ splitLines (Y.dropWhile (fun c => c == '\n')) := by
    intro p hp
    rw [← hps0, List.mem_reverse] at hp
    have h2 := (List.dropWhile_sublist _).mem hp
    exact List.mem_reverse.mp h2
  cases ps with
  | nil =>
    intro l hl
    have hl2 : l ∈ [([] : List Char)] := hl
    rcases List.mem_singleton.mp hl2 with rfl
    rfl
  | cons p0 ps' =>
    have hnl' : ∀ p ∈ p0 :: ps', '\n' ∉ p := by
      intro p hp
      exact hpnl p (hsub p hp)
    intro l hl
    rw [splitLines_joinNl (p0 :: ps') (by simp) hnl'] at hl
    exact hV l (hsub l hl)

theorem sanitizeChars_of_linesOK (cs : List Char)
    (hstar : '*' ∉ cs) (hzw : '​' ∉ cs) (hlines : linesOK cs) :
    sanitizeChars cs = jsTrimList (collapseNewlines cs) := by
  have hz : '​' ∉ collapseNewlines cs := by
    intro hm
    rcases mem_of_mem_collapse cs _ hm with h2 | h2
    · exact hzw h2
    · exact absurd h2 (by decide)
  rw [sanitizeChars]
  rw [crlfToLf_fix cs (hasCRLF_of_linesOK cs hlines)]
  rw [starJoin_fix cs hstar]
  rw [(trimEachLine_fix_iff _).mpr (linesOK_collapse cs hlines)]
  rw [stripZeroWidth_fix _ hz]

theorem sanitizeChars_idem_of_linesOK (cs : List Char)
    (hstar : '*' ∉ cs) (hzw : '​' ∉ cs) (hlines : linesOK cs) :
    sanitizeChars (sanitizeChars cs) = sanitizeChars cs := by
  rw [sanitizeChars_of_linesOK cs hstar hzw hlines]
  have hmemT : ∀ x ∈ jsTrimList (collapseNewlines cs), x ∈ cs ∨ x = '\n' := by
    intro x hx
    exact mem_of_mem_collapse cs x (mem_of_mem_jsTrimList _ x hx)
  have hstarT : '*' ∉ jsTrimList (collapseNewlines cs) := by
    intro hm
    rcases hmemT '*' hm with h2 | h2
    · exact hstar h2
    · exact absurd h2 (by decide)
  have hzwT : '​' ∉ jsTrimList (collapseNewlines cs) := by
    intro hm
    rcases hmemT _ hm with h2 | h2
    · exact hzw h2
    · exact absurd h2 (by decide)
  have hlinesT : linesOK (jsTrimList (collapseNewlines cs)) :=
    linesOK_jsTrimList _ (linesOK_collapse cs hlines)
  rw [sanitizeChars_of_linesOK _ hstarT hzwT hlinesT]
  have hnt : hasTripleNl (jsTrimList (collapseNewlines cs)) = false :=
    hasTripleNl_jsTrimList _ (collapse_noTriple cs)
  rw [collapse_fix_of_noTriple _ hnt]
  exact jsTrim_idem _

/-- Claim C10 (amended): `sanitizeSuggestion` is not idempotent in general
(see `sanitizeSuggestion_not_idempotent`: the per-line trim runs after the
blank-line collapse and can create a fresh run of three newlines that only a
second pass collapses; stripping zero-width spaces can likewise expose new
`*␣*` pairs).  It is idempotent on every input that contains no `'*'` and no
zero-width space and whose lines are each already trimmed: on such inputs the
remaining passes (CRLF normalisation, blank-line collapse, outer trim) are
completed by a single application, so the page's second application never
alters the text. -/
theorem sanitizeSuggestion_idempotent_line_trimmed (s : String)
    (hstar : '*' ∉ s.data) (hzw : '​' ∉ s.data)
    (hlines : trimEachLine s.data = s.data) :
    sanitizeSuggestion (sanitizeSuggestion (some s)) = sanitizeSuggestion (some s) := by
  have hlok : linesOK s.data := (trimEachLine_fix_iff s.data).mp hlines
  show some (⟨sanitizeChars (sanitizeChars s.data)⟩ : String) = some ⟨sanitizeChars s.data⟩
  rw [sanitizeChars_idem_of_linesOK s.data hstar hzw hlok]

/-- Witness for the amended C10 at `"a\n\n\n\nb"`: a line-trimmed, star-free
input that is *not* a fixed point of the sanitizer (the first pass collapses
the newline run), yet the second application changes nothing. -/
theorem sanitizeSuggestion_idempotent_line_trimmed_witness :
    ('*' ∉ ("a\n\n\n\nb" : String).data) ∧
      ('​' ∉ ("a\n\n\n\nb" : String).data) ∧
      trimEachLine ("a\n\n\n\nb" : String).data = ("a\n\n\n\nb" : String).data ∧
      sanitizeSuggestion (sanitizeSuggestion (some "a\n\n\n\nb")) =
        sanitizeSuggestion (some "a\n\n\n\nb") := by
  refine ⟨by decide, by decide, by decide, ?_⟩
  exact sanitizeSuggestion_idempotent_line_trimmed "a\n\n\n\nb" (by decide) (by decide)
    (by decide)

end WanderWeather
